import Mathlib

/-! compsize: extent decoding and deduplicated accounting

A shallow embedding of `src/compsize.cc` (the decode loop of `do_file`, the
global accumulators and the seen-extent set) together with theorems about it.

Conventions of the embedding:

* a byte is a `Fin 256`; the static array `sv2_args.buf` is a function from
  byte offsets to bytes (the code never checks an offset against any bound);
* `uint64_t` and `uint32_t` values are natural numbers, reduced `% 2^64` or
  `% 2^32` wherever the C arithmetic can wrap;
* `std::set<uint64_t> seen_extents` is a `Finset Nat`;
* `disk[256]` and `total[256]` are functions `Byte → Nat`;
* the answers of the operating system (open, fstat, readdir, the two ioctls)
  are input data (`Path`, `Search`); `die` is the result `none`.
-/

namespace Compsize

/-! ## Bytes, memory and byte order -/

/-- One `uint8_t`. -/
abbrev Byte := Fin 256

/-- The contents of `sv2_args.buf`, addressed by byte offset. -/
abbrev Buf := Nat → Byte

/-- Byte order of the host the program runs on. -/
inductive Endian where
  | little
  | big
  deriving DecidableEq

/-- The load `((u32_unal*)mem)->v` of `get_u32`, and the plain load of a
`__u32` struct field: four bytes assembled in host order. -/
def load32 (e : Endian) (mem : Buf) (p : Nat) : Nat :=
  match e with
  | .little =>
      (mem p).val + (mem (p + 1)).val * 2 ^ 8 + (mem (p + 2)).val * 2 ^ 16
        + (mem (p + 3)).val * 2 ^ 24
  | .big =>
      (mem p).val * 2 ^ 24 + (mem (p + 1)).val * 2 ^ 16 + (mem (p + 2)).val * 2 ^ 8
        + (mem (p + 3)).val

/-- The load `((u64_unal*)mem)->v` of `get_u64`: eight bytes assembled in
host order. -/
def load64 (e : Endian) (mem : Buf) (p : Nat) : Nat :=
  match e with
  | .little =>
      (mem p).val + (mem (p + 1)).val * 2 ^ 8 + (mem (p + 2)).val * 2 ^ 16
        + (mem (p + 3)).val * 2 ^ 24 + (mem (p + 4)).val * 2 ^ 32
        + (mem (p + 5)).val * 2 ^ 40 + (mem (p + 6)).val * 2 ^ 48
        + (mem (p + 7)).val * 2 ^ 56
  | .big =>
      (mem p).val * 2 ^ 56 + (mem (p + 1)).val * 2 ^ 48 + (mem (p + 2)).val * 2 ^ 40
        + (mem (p + 3)).val * 2 ^ 32 + (mem (p + 4)).val * 2 ^ 24
        + (mem (p + 5)).val * 2 ^ 16 + (mem (p + 6)).val * 2 ^ 8
        + (mem (p + 7)).val

/-- Byte reversal of a 32-bit value. -/
def bswap32 (x : Nat) : Nat :=
  (x % 256) * 2 ^ 24 + (x / 2 ^ 8 % 256) * 2 ^ 16 + (x / 2 ^ 16 % 256) * 2 ^ 8
    + (x / 2 ^ 24 % 256)

/-- Byte reversal of a 64-bit value. -/
def bswap64 (x : Nat) : Nat :=
  (x % 256) * 2 ^ 56 + (x / 2 ^ 8 % 256) * 2 ^ 48 + (x / 2 ^ 16 % 256) * 2 ^ 40
    + (x / 2 ^ 24 % 256) * 2 ^ 32 + (x / 2 ^ 32 % 256) * 2 ^ 24
    + (x / 2 ^ 40 % 256) * 2 ^ 16 + (x / 2 ^ 48 % 256) * 2 ^ 8
    + (x / 2 ^ 56 % 256)

/-- Modelled from the spec: `htole32` comes from `endianness.h`, which is not
among the sources.  It is the usual host-to-little-endian conversion: the
identity on a little-endian host and a byte reversal on a big-endian one, so
that "all multi-byte integers are stored in a fixed (little-endian) byte
order regardless of host byte order". -/
def htole32 (e : Endian) (x : Nat) : Nat :=
  match e with
  | .little => x
  | .big => bswap32 x

/-- Modelled from the spec: `htole64` comes from `endianness.h`, which is not
among the sources; see `htole32`. -/
def htole64 (e : Endian) (x : Nat) : Nat :=
  match e with
  | .little => x
  | .big => bswap64 x

/-- The function `get_u64` (lines 37-42). -/
def get_u64 (e : Endian) (mem : Buf) (p : Nat) : Nat :=
  let bad_endian := load64 e mem p
  htole64 e bad_endian

/-- The function `get_u32` (lines 44-49). -/
def get_u32 (e : Endian) (mem : Buf) (p : Nat) : Nat :=
  let bad_endian := load32 e mem p
  htole32 e bad_endian

/-! ## Layout constants of the search response -/

/-- Modelled from the spec: `struct btrfs_ioctl_search_header` is declared in
`<btrfs/ioctl.h>`, which is not among the sources.  It is the "fixed-size
header (item type tag, a byte length, and positional/identity fields)":
three `__u64` (transid, objectid, offset) followed by two `__u32` (type,
len), 32 bytes in all. -/
def sizeof_search_header : Nat := 32

/-- Modelled from the spec: offset of the `type` field (the item type tag) in
`struct btrfs_ioctl_search_header`, after the three `__u64` fields. -/
def offsetof_type : Nat := 24

/-- Modelled from the spec: offset of the `len` field (the byte length of the
body) in `struct btrfs_ioctl_search_header`. -/
def offsetof_len : Nat := 28

/-- Modelled from the spec: the type tag that "identifies them as extent
data"; the macro is defined in `<btrfs/ctree.h>`, which is not among the
sources, as 108. -/
def BTRFS_EXTENT_DATA_KEY : Nat := 108

/-! ## Global state -/

/-- The globals of lines 51-52. -/
structure State where
  seen_extents : Finset Nat
  disk : Byte → Nat
  total : Byte → Nat
  disk_all : Nat
  total_all : Nat
  nfiles : Nat

/-- The state at the start of `main` (lines 210-212), with the
default-constructed empty `seen_extents`. -/
def init_state : State :=
  { seen_extents := ∅
    disk := fun _ => 0
    total := fun _ => 0
    disk_all := 0
    total_all := 0
    nfiles := 0 }

/-- The four additions of lines 163-166, repeated at lines 174-177. -/
def account (st : State) (compression : Byte) (len ram_bytes : Nat) : State :=
  { st with
    disk := Function.update st.disk compression ((st.disk compression + len) % 2 ^ 64)
    total :=
      Function.update st.total compression ((st.total compression + ram_bytes) % 2 ^ 64)
    disk_all := (st.disk_all + len) % 2 ^ 64
    total_all := (st.total_all + ram_bytes) % 2 ^ 64 }

/-! ## The decode loop of `do_file` -/

/-- The value of `hlen` (line 117): the result of `get_u32` stored in a
`uint32_t`. -/
def item_hlen (e : Endian) (buf : Buf) (bp : Nat) : Nat :=
  get_u32 e buf (bp + offsetof_len) % 2 ^ 32

/-- The value `head->type` compared at line 132: a plain load of the `__u32`
field, with no byte-order conversion. -/
def item_type (e : Endian) (buf : Buf) (bp : Nat) : Nat :=
  load32 e buf (bp + offsetof_type)

/-- The body of `if (head->type == BTRFS_EXTENT_DATA_KEY)` (lines 133-179);
`bp` points at the item body and `hlen` is the declared item length. -/
def do_extent_data (e : Endian) (buf : Buf) (bp hlen : Nat) (st : State) : State :=
  let ram_bytes := get_u64 e buf (bp + 8)
  let compression := buf (bp + 16)
  let type := buf (bp + 20)
  if type ≠ 0 then
    let len := get_u64 e buf (bp + 29)
    let disk_bytenr := get_u64 e buf (bp + 21)
    if disk_bytenr ∉ st.seen_extents then
      account { st with seen_extents := insert disk_bytenr st.seen_extents }
        compression len ram_bytes
    else
      st
  else
    -- `hlen-21` is computed in `uint32_t` and then widened
    let len := (hlen + 2 ^ 32 - 21) % 2 ^ 32
    account st compression len ram_bytes

/-- One iteration of the loop of lines 114-181: the item whose header starts
at offset `bp`.  Returns the advanced cursor and the new state. -/
def do_item (e : Endian) (buf : Buf) (bp : Nat) (st : State) : Nat × State :=
  let head := bp
  let hlen := item_hlen e buf head
  let bp := bp + sizeof_search_header
  let st :=
    if item_type e buf head = BTRFS_EXTENT_DATA_KEY then
      do_extent_data e buf bp hlen st
    else
      st
  (bp + hlen, st)

/-- The loop `while (sv2_args.key.nr_items--)` (lines 113-181), started with
the cursor at `bp`. -/
def decode_loop (e : Endian) (buf : Buf) : Nat → Nat → State → Nat × State
  | 0, bp, st => (bp, st)
  | nr_items + 1, bp, st =>
      let r := do_item e buf bp st
      decode_loop e buf nr_items r.1 r.2

/-! ## The operating system as input data -/

/-- What the two ioctls answer for a regular file. -/
inductive Search where
  /-- The ioctl `BTRFS_IOC_INO_LOOKUP` fails. -/
  | lookup_fails
  /-- The ioctl `BTRFS_IOC_TREE_SEARCH_V2` fails. -/
  | search_fails
  /-- Both succeed; the kernel left `nr_items` in the key and `buf` in the
  response array. -/
  | found (nr_items : Nat) (buf : Buf)

/-- What the operating system answers for one path name. -/
inductive Path where
  /-- The call of `open` fails with `ELOOP`. -/
  | eloop
  /-- The call of `open` fails with another error. -/
  | open_fails
  /-- The call of `fstat` fails. -/
  | stat_fails
  /-- A directory on which `fdopendir` fails. -/
  | opendir_fails
  /-- A directory entry for which `asprintf` fails. -/
  | out_of_memory
  /-- A directory with its entries other than `.` and `..`. -/
  | dir (entries : List Path)
  /-- Neither a directory nor a regular file. -/
  | other
  /-- A regular file. -/
  | regular (s : Search)

mutual
/-- The function `do_file` (lines 55-184); the result `none` is `die`. -/
def do_file (e : Endian) : Path → State → Option State
  | .eloop, st => some st
  | .open_fails, _ => none
  | .stat_fails, _ => none
  | .opendir_fails, _ => none
  | .out_of_memory, _ => none
  | .dir entries, st => do_entries e entries st
  | .other, st => some st
  | .regular s, st =>
      let st := { st with nfiles := (st.nfiles + 1) % 2 ^ 64 }
      match s with
      | .lookup_fails => none
      | .search_fails => none
      | .found nr_items buf => some (decode_loop e buf nr_items 0 st).2
/-- The `readdir` loop of lines 72-81. -/
def do_entries (e : Endian) : List Path → State → Option State
  | [], st => some st
  | p :: ps, st =>
      match do_file e p st with
      | none => none
      | some st => do_entries e ps st
end

/-! ## Building concrete responses -/

/-- A response of `l.length` bytes written at the start of the
zero-initialised static array. -/
def bufOfList (l : List Byte) : Buf := fun i => l.getD i 0

/-- The `n` low bytes of `x`, least significant first. -/
def le_bytes : Nat → Nat → List Byte
  | 0, _ => []
  | n + 1, x => ⟨x % 256, Nat.mod_lt _ (by decide)⟩ :: le_bytes n (x / 256)

/-- The four bytes of a `__u32` as the host stores it. -/
def host32_bytes (e : Endian) (x : Nat) : List Byte :=
  match e with
  | .little => le_bytes 4 x
  | .big => (le_bytes 4 x).reverse

/-- A search header: transid, objectid and offset zero, the type tag as the
host stores it, the length little-endian. -/
def header_bytes (e : Endian) (type len : Nat) : List Byte :=
  le_bytes 8 0 ++ le_bytes 8 0 ++ le_bytes 8 0 ++ host32_bytes e type ++ le_bytes 4 len

/-- The 21-byte fixed prefix of an extent-data body: generation (zero),
ram_bytes, compression, encryption (zero), two unused bytes, type. -/
def prefix_bytes (ram_bytes : Nat) (compression type : Byte) : List Byte :=
  le_bytes 8 0 ++ le_bytes 8 ram_bytes ++ [compression, 0, 0, 0, type]

/-- A complete 53-byte regular extent-data item with its header; the
intra-extent offset is zero and num_bytes is `ram_bytes`. -/
def regular_item (e : Endian) (ram_bytes : Nat) (compression type : Byte)
    (disk_bytenr disk_num_bytes : Nat) : List Byte :=
  header_bytes e BTRFS_EXTENT_DATA_KEY 53 ++ prefix_bytes ram_bytes compression type
    ++ le_bytes 8 disk_bytenr ++ le_bytes 8 disk_num_bytes ++ le_bytes 8 0
    ++ le_bytes 8 ram_bytes

/-- An inline extent-data item with its header and the given payload. -/
def inline_item (e : Endian) (ram_bytes : Nat) (compression : Byte)
    (payload : List Byte) : List Byte :=
  header_bytes e BTRFS_EXTENT_DATA_KEY (21 + payload.length)
    ++ prefix_bytes ram_bytes compression 0 ++ payload

/-! ## Reading the fields of one item

The item whose header starts at offset `bp`; the names are those of the local
variables of the loop body. -/

/-- The little-endian integer held by the `n` bytes at offset `p`. -/
def le_value (mem : Buf) (p : Nat) : Nat → Nat
  | 0 => 0
  | n + 1 => le_value mem p n + (mem (p + n)).val * 256 ^ n

/-- Offset of the item body: `bp` after line 121. -/
def body (bp : Nat) : Nat := bp + sizeof_search_header

/-- The local `ram_bytes` (line 143). -/
def ram_bytes (e : Endian) (buf : Buf) (bp : Nat) : Nat := get_u64 e buf (body bp + 8)

/-- The local `compression` (line 144). -/
def compression (buf : Buf) (bp : Nat) : Byte := buf (body bp + 16)

/-- The local `type` (line 145): the storage-mode discriminant. -/
def storage_mode (buf : Buf) (bp : Nat) : Byte := buf (body bp + 20)

/-- The local `disk_bytenr` (line 156). -/
def disk_bytenr (e : Endian) (buf : Buf) (bp : Nat) : Nat := get_u64 e buf (body bp + 21)

/-- The local `len` of the regular branch (line 155). -/
def disk_num_bytes (e : Endian) (buf : Buf) (bp : Nat) : Nat := get_u64 e buf (body bp + 29)

/-- The local `len` of the inline branch (line 171): `hlen-21` in `uint32_t`. -/
def inline_len (e : Endian) (buf : Buf) (bp : Nat) : Nat :=
  (item_hlen e buf bp + 2 ^ 32 - 21) % 2 ^ 32

/-- The item at `bp` passes the test of line 132. -/
abbrev IsExtentData (e : Endian) (buf : Buf) (bp : Nat) : Prop :=
  item_type e buf bp = BTRFS_EXTENT_DATA_KEY

/-- An extent-data item that takes the branch `if (type)` (line 146). -/
abbrev IsRegular (e : Endian) (buf : Buf) (bp : Nat) : Prop :=
  IsExtentData e buf bp ∧ storage_mode buf bp ≠ 0

/-- An extent-data item that takes the `else` branch (line 169). -/
abbrev IsInline (e : Endian) (buf : Buf) (bp : Nat) : Prop :=
  IsExtentData e buf bp ∧ storage_mode buf bp = 0

/-- The physical bytes an extent-data item is accounted with: `len` of
whichever branch it takes. -/
def physical_len (e : Endian) (buf : Buf) (bp : Nat) : Nat :=
  if storage_mode buf bp ≠ 0 then disk_num_bytes e buf bp else inline_len e buf bp

/-- The partition invariant between the 256 buckets and the grand total, in
`uint64_t` arithmetic. -/
def SumsAgree (st : State) : Prop :=
  (∑ c : Byte, st.disk c) % 2 ^ 64 = st.disk_all ∧
  (∑ c : Byte, st.total c) % 2 ^ 64 = st.total_all

end Compsize

namespace Compsize

/-! ## Framing -/

/-- Offset of the header of item number `k` of a response, counting from 0:
the first header is at offset 0 and each item is followed by the next after
its header and its declared length. -/
def item_start (e : Endian) (buf : Buf) : Nat → Nat
  | 0 => 0
  | k + 1 => body (item_start e buf k) + item_hlen e buf (item_start e buf k)

/-- Item number `k` of the response is among the `nr_items` items and its
declared length extends past the first `size` bytes, the bytes that were
supplied. -/
abbrev OverrunsAt (e : Endian) (buf : Buf) (nr_items size k : Nat) : Prop :=
  k < nr_items ∧ size < item_start e buf (k + 1)

end Compsize

namespace Compsize

/-! ## Extent records -/

/-- The `ExtentRecord` of the specification.  The storage mode is carried by
`physical_address`: `none` for an Inline record, `some addr` for a Regular
one. -/
structure ExtentRecord where
  logical_bytes : Nat
  compression_type : Byte
  physical_address : Option Nat
  physical_bytes : Nat

/-- The record the loop body reads from the extent-data item at `bp`. -/
def record_at (e : Endian) (buf : Buf) (bp : Nat) : ExtentRecord :=
  { logical_bytes := ram_bytes e buf bp
    compression_type := compression buf bp
    physical_address :=
      if storage_mode buf bp ≠ 0 then some (disk_bytenr e buf bp) else none
    physical_bytes := physical_len e buf bp }

/-- The records of the `nr_items` items that start at `bp`, in order; an item
that is not extent data yields no record. -/
def records (e : Endian) (buf : Buf) : Nat → Nat → List ExtentRecord
  | 0, _ => []
  | nr_items + 1, bp =>
      (if IsExtentData e buf bp then [record_at e buf bp] else [])
        ++ records e buf nr_items (body bp + item_hlen e buf bp)

/-- The records of a sequence of files, each given by its item count and
its response buffer. -/
def all_records (e : Endian) : List (Nat × Buf) → List ExtentRecord
  | [] => []
  | f :: fs => records e f.2 f.1 0 ++ all_records e fs

/-- A directory that holds regular files with the given responses. -/
def files_path (files : List (Nat × Buf)) : Path :=
  .dir (files.map fun f => .regular (.found f.1 f.2))

/-- The Aggregator of the specification (section 4.4), on one record. -/
def apply_record (st : State) (r : ExtentRecord) : State :=
  match r.physical_address with
  | some addr =>
      if addr ∈ st.seen_extents then st
      else
        account { st with seen_extents := insert addr st.seen_extents }
          r.compression_type r.physical_bytes r.logical_bytes
  | none => account st r.compression_type r.physical_bytes r.logical_bytes

/-- A record counts when it is Inline, or when it is the first record of the
sequence to carry its physical address: none of the records `before` it
carries that address. -/
def counted (before : List ExtentRecord) (r : ExtentRecord) : Bool :=
  match r.physical_address with
  | none => true
  | some addr => decide (some addr ∉ before.map (fun r' => r'.physical_address))

/-- The records of `rs` that count, given the records `before` them. -/
def first_observed_from (before : List ExtentRecord) : List ExtentRecord → List ExtentRecord
  | [] => []
  | r :: rs =>
      (if counted before r then [r] else []) ++ first_observed_from (before ++ [r]) rs

/-- The records of a whole sequence that count: every Inline record, and of
the Regular records the first one observed at each physical address. -/
def first_observed (rs : List ExtentRecord) : List ExtentRecord :=
  first_observed_from [] rs

/-- Sum of the physical bytes of the records with compression byte `c`. -/
def physical_sum (c : Byte) (rs : List ExtentRecord) : Nat :=
  ((rs.filter fun r => r.compression_type = c).map fun r => r.physical_bytes).sum

/-- Sum of the logical bytes of the records with compression byte `c`. -/
def logical_sum (c : Byte) (rs : List ExtentRecord) : Nat :=
  ((rs.filter fun r => r.compression_type = c).map fun r => r.logical_bytes).sum

end Compsize

namespace Compsize

/-! ## Bytes the decoder does not use -/

/-- The buffer `buf` with the bytes at the offsets selected by `sel` replaced
by those of `other`. -/
def overwrite (buf other : Buf) (sel : Nat → Bool) : Buf :=
  fun i => if sel i then other i else buf i

/-- Offsets, for the item at `bp`, of the body fields that a Regular item
carries and the loop does not read: generation (body offsets 0-7),
encryption (17), the two reserved bytes (18-19), the intra-extent offset
(37-44) and num_bytes (45-52). -/
def regular_unused (bp i : Nat) : Bool :=
  decide (body bp ≤ i ∧ i < body bp + 8) || decide (i = body bp + 17)
    || decide (i = body bp + 18) || decide (i = body bp + 19)
    || decide (body bp + 37 ≤ i ∧ i < body bp + 53)

/-- Offsets, for the item at `bp`, from body offset 21 on: the payload of an
Inline item and everything after it. -/
def inline_payload (bp i : Nat) : Bool :=
  decide (body bp + 21 ≤ i)

end Compsize

namespace Compsize

/-! ## Items the loop skips, and the header offsets it visits -/

/-- Offsets, for the item at `bp`, from the start of its body on: the body
of the item and everything after it. -/
def item_body (bp i : Nat) : Bool :=
  decide (body bp ≤ i)

/-- The header offsets the loop of lines 114-181 visits, one per iteration:
the same loop as `decode_loop`, recording `bp` at line 116 instead of
updating the state. -/
def item_offsets (e : Endian) (buf : Buf) : Nat → Nat → List Nat
  | 0, _ => []
  | nr_items + 1, bp =>
      bp :: item_offsets e buf nr_items (bp + sizeof_search_header + item_hlen e buf bp)

end Compsize

namespace Compsize

/-! ## The report: `print_bytes`, `print_stats` and `main` -/

/-- The string `units` of `print_bytes` (line 188). -/
def units : String := "BKMGTPE"

/-- The character `units[i]`, when `i` is an index into the string. -/
def unit_char (i : Nat) : Option Char := units.toList[i]?

/-- What `print_bytes` passes to `printf`. -/
inductive BytesText where
  /-- Line 193, the format `" %lu.%lu%c"`: the values `x>>10` and
  `x*10/1024%10` and the index `u+1` of the unit letter. -/
  | decimal (whole digit unit : Nat)
  /-- Line 195, the format `"%4lu%c"`: the value `x` and the index `u` of
  the unit letter. -/
  | plain (x unit : Nat)
  deriving DecidableEq

/-- The index with which `print_bytes` selects the unit letter. -/
def BytesText.unit_index : BytesText → Nat
  | .decimal _ _ unit => unit
  | .plain _ unit => unit

/-- The loop `while (x >= 10240) u++, x>>=10;` (lines 190-191), from the
values `u` and `x`.  The first argument bounds the number of iterations;
`print_bytes` passes `x` itself, which the loop cannot use up because every
iteration makes `x` smaller. -/
def print_bytes_loop : Nat → Nat → Nat → Nat × Nat
  | 0, u, x => (u, x)
  | fuel + 1, u, x =>
      if 10240 ≤ x then print_bytes_loop fuel (u + 1) (x / 2 ^ 10) else (u, x)

/-- The function `print_bytes` (lines 186-197). -/
def print_bytes (x : Nat) : BytesText :=
  let r := print_bytes_loop x 0 x
  let u := r.1
  let x := r.2
  if 1024 ≤ x then
    .decimal (x / 2 ^ 10) (x * 10 % 2 ^ 64 / 1024 % 10) (u + 1)
  else
    .plain x u

/-- One line of the report, as `print_stats` prints it. -/
structure StatsLine where
  type : String
  percent : Nat
  disk : BytesText
  total : BytesText

/-- The function `print_stats` (lines 199-206).  The result is `none` when
`t` is 0: the division of line 201 is then undefined. -/
def print_stats (type : String) (d t : Nat) : Option StatsLine :=
  if t = 0 then none
  else
    some
      { type := type
        percent := d * 100 % 2 ^ 64 / t
        disk := print_bytes d
        total := print_bytes t }

/-- The table `comp_types` (line 53): four names, the other 252 entries
null. -/
def comp_types (t : Byte) : Option String :=
  match t.val with
  | 0 => some "none"
  | 1 => some "zlib"
  | 2 => some "lzo"
  | 3 => some "zstd"
  | _ => none

/-- How a run of `main` ends. -/
inductive Outcome where
  /-- The function `die` was called: a message on stderr and `exit(1)`. -/
  | fatal
  /-- The usage message and `return 1` (lines 214-218). -/
  | usage
  /-- The message "No files." and `return 1` (lines 223-227). -/
  | no_files
  /-- The report and `return 0` (lines 229-240): the file count when line
  230 prints it, and the results of the calls of `print_stats` in order. -/
  | report (files : Option Nat) (lines : List (Option StatsLine))

/-- The exit status of the process. -/
def exit_status : Outcome → Nat
  | .fatal => 1
  | .usage => 1
  | .no_files => 1
  | .report _ _ => 0

/-- The buckets the loop of lines 232-238 reports, in order: those it does
not skip at line 234. -/
def reported_buckets (st : State) : List Byte :=
  (List.finRange 256).filter fun t => st.total t ≠ 0

/-- The calls of `print_stats` of lines 231-238. -/
def stats_lines (st : State) : List (Option StatsLine) :=
  print_stats "all" st.disk_all st.total_all
    :: (reported_buckets st).map fun t =>
        print_stats ((comp_types t).getD "?????") (st.disk t) (st.total t)

/-- Lines 223-240 of `main`: what is printed for the final state. -/
def report (st : State) : Outcome :=
  if st.total_all = 0 then .no_files
  else .report (if 1 < st.nfiles then some st.nfiles else none) (stats_lines st)

/-- The loop of lines 220-221 over the path arguments. -/
def do_args (e : Endian) : List Path → State → Option State
  | [], st => some st
  | p :: ps, st =>
      match do_file e p st with
      | none => none
      | some st => do_args e ps st

/-- The function `main` (lines 208-241), on the path arguments `argv[1]`,
`argv[2]`, ... -/
def main (e : Endian) (args : List Path) : Outcome :=
  match args with
  | [] => .usage
  | _ :: _ =>
      match do_args e args init_state with
      | none => .fatal
      | some st => report st

end Compsize

namespace Compsize

/-! ## Reads, the native search header and declared lengths -/

/-- The size of the array `sv2_args.buf` (line 34). -/
def sizeof_buf : Nat := 16777216

/-- One past the highest offset that the iteration for the item at `bp`
reads: the header always (line 116-132); for an extent-data item the body
up to the storage-mode byte at offset 20 (lines 143-145); for one that takes
the branch `if (type)` also `disk_bytenr` and `disk_num_bytes`, up to body
offset 36 (lines 155-156). -/
def item_read_end (e : Endian) (buf : Buf) (bp : Nat) : Nat :=
  if item_type e buf bp = BTRFS_EXTENT_DATA_KEY then
    if storage_mode buf bp ≠ 0 then body bp + 37 else body bp + 21
  else
    bp + sizeof_search_header

/-- Every byte the loop reads while it handles the first `nr_items` items
lies among the first `size` bytes. -/
abbrev ReadsWithin (e : Endian) (buf : Buf) (nr_items size : Nat) : Prop :=
  ∀ k, k < nr_items → item_read_end e buf (item_start e buf k) ≤ size

/-- The big-endian integer held by the `n` bytes at offset `p`. -/
def be_value (mem : Buf) (p : Nat) : Nat → Nat
  | 0 => 0
  | n + 1 => be_value mem p n * 256 + (mem (p + n)).val

/-- A search header as the kernel writes it, a struct in host byte order:
transid, objectid and offset zero, then the type tag and the length, both
as the host stores a `__u32`. -/
def native_header_bytes (e : Endian) (type len : Nat) : List Byte :=
  le_bytes 8 0 ++ le_bytes 8 0 ++ le_bytes 8 0 ++ host32_bytes e type ++ host32_bytes e len

/-- A complete regular extent-data item behind a header in host byte order;
the body is in the little-endian on-disk format, as in `regular_item`. -/
def native_regular_item (e : Endian) (ram_bytes : Nat) (compression type : Byte)
    (disk_bytenr disk_num_bytes : Nat) : List Byte :=
  native_header_bytes e BTRFS_EXTENT_DATA_KEY 53 ++ prefix_bytes ram_bytes compression type
    ++ le_bytes 8 disk_bytenr ++ le_bytes 8 disk_num_bytes ++ le_bytes 8 0
    ++ le_bytes 8 ram_bytes

/-- Where the header of item number `k` belongs when the items before it
have the body lengths `lens`: the sum over the earlier items of the 32-byte
header size plus the item's length. -/
def expected_start (lens : List Nat) (k : Nat) : Nat :=
  ((lens.take k).map fun l => 32 + l).sum

/-- The buffer holds well-formed items of body lengths `lens`, back to back
from offset 0: for each `k` the four bytes of the `len` field of the header
at `expected_start lens k`, read little-endian, are the `k`-th length. -/
abbrev DeclaresLengths (buf : Buf) (lens : List Nat) : Prop :=
  ∀ k, k < lens.length →
    some (le_value buf (expected_start lens k + 28) 4) = lens[k]?

end Compsize

/-! # Theorems -/

namespace Compsize

/-! ## Byte order -/

theorem digit_of_sum (x hi d lo m : Nat) (hd : d < 256) (hlo : lo < m)
    (hx : x = hi * (256 * m) + d * m + lo) : x / m % 256 = d := by
  have hm : 0 < m := by omega
  have h : hi * (256 * m) + d * m + lo = lo + m * (hi * 256 + d) := by ring
  rw [hx, h, Nat.add_mul_div_left _ _ hm, Nat.div_eq_of_lt hlo]
  omega

theorem bswap32_be (a b c d : Nat) (ha : a < 256) (hb : b < 256) (hc : c < 256)
    (hd : d < 256) :
    bswap32 (a * 2 ^ 24 + b * 2 ^ 16 + c * 2 ^ 8 + d)
      = a + b * 2 ^ 8 + c * 2 ^ 16 + d * 2 ^ 24 := by
  simp only [bswap32, Nat.reducePow]
  omega

theorem bswap64_be (a b c d f g h i : Nat) (ha : a < 256) (hb : b < 256) (hc : c < 256)
    (hd : d < 256) (hf : f < 256) (hg : g < 256) (hh : h < 256) (hi : i < 256) :
    bswap64 (a * 2 ^ 56 + b * 2 ^ 48 + c * 2 ^ 40 + d * 2 ^ 32 + f * 2 ^ 24 + g * 2 ^ 16
        + h * 2 ^ 8 + i)
      = a + b * 2 ^ 8 + c * 2 ^ 16 + d * 2 ^ 24 + f * 2 ^ 32 + g * 2 ^ 40 + h * 2 ^ 48
        + i * 2 ^ 56 := by
  simp only [bswap64, Nat.reducePow]
  generalize hx : a * 72057594037927936 + b * 281474976710656 + c * 1099511627776
    + d * 4294967296 + f * 16777216 + g * 65536 + h * 256 + i = x
  have e0 : x % 256 = i := by omega
  have e1 : x / 256 % 256 = h :=
    digit_of_sum x (a * 1099511627776 + b * 4294967296 + c * 16777216 + d * 65536 + f * 256 + g)
      h i 256 hh (by omega) (by rw [← hx]; ring)
  have e2 : x / 65536 % 256 = g :=
    digit_of_sum x (a * 4294967296 + b * 16777216 + c * 65536 + d * 256 + f) g (h * 256 + i)
      65536 hg (by omega) (by rw [← hx]; ring)
  have e3 : x / 16777216 % 256 = f :=
    digit_of_sum x (a * 16777216 + b * 65536 + c * 256 + d) f (g * 65536 + h * 256 + i)
      16777216 hf (by omega) (by rw [← hx]; ring)
  have e4 : x / 4294967296 % 256 = d :=
    digit_of_sum x (a * 65536 + b * 256 + c) d (f * 16777216 + g * 65536 + h * 256 + i)
      4294967296 hd (by omega) (by rw [← hx]; ring)
  have e5 : x / 1099511627776 % 256 = c :=
    digit_of_sum x (a * 256 + b) c
      (d * 4294967296 + f * 16777216 + g * 65536 + h * 256 + i)
      1099511627776 hc (by omega) (by rw [← hx]; ring)
  have e6 : x / 281474976710656 % 256 = b :=
    digit_of_sum x a b
      (c * 1099511627776 + d * 4294967296 + f * 16777216 + g * 65536 + h * 256 + i)
      281474976710656 hb (by omega) (by rw [← hx]; ring)
  have e7 : x / 72057594037927936 % 256 = a :=
    digit_of_sum x 0 a
      (b * 281474976710656 + c * 1099511627776 + d * 4294967296 + f * 16777216 + g * 65536
        + h * 256 + i)
      72057594037927936 ha (by omega) (by rw [← hx]; ring)
  rw [e0, e1, e2, e3, e4, e5, e6, e7]
  omega

/-- On either host `get_u32` returns the little-endian value of the four
bytes. -/
theorem get_u32_eq (e : Endian) (mem : Buf) (p : Nat) :
    get_u32 e mem p = le_value mem p 4 := by
  have h0 := (mem p).isLt
  have h1 := (mem (p + 1)).isLt
  have h2 := (mem (p + 2)).isLt
  have h3 := (mem (p + 3)).isLt
  cases e
  · simp only [get_u32, htole32, load32, le_value, Nat.add_zero, Nat.reducePow]
    omega
  · simp only [get_u32, htole32, load32, le_value, Nat.add_zero]
    rw [bswap32_be _ _ _ _ h0 h1 h2 h3]
    simp only [Nat.reducePow]
    omega

/-- On either host `get_u64` returns the little-endian value of the eight
bytes. -/
theorem get_u64_eq (e : Endian) (mem : Buf) (p : Nat) :
    get_u64 e mem p = le_value mem p 8 := by
  have h0 := (mem p).isLt
  have h1 := (mem (p + 1)).isLt
  have h2 := (mem (p + 2)).isLt
  have h3 := (mem (p + 3)).isLt
  have h4 := (mem (p + 4)).isLt
  have h5 := (mem (p + 5)).isLt
  have h6 := (mem (p + 6)).isLt
  have h7 := (mem (p + 7)).isLt
  cases e
  · simp only [get_u64, htole64, load64, le_value, Nat.add_zero, Nat.reducePow]
    omega
  · simp only [get_u64, htole64, load64, le_value, Nat.add_zero]
    rw [bswap64_be _ _ _ _ _ _ _ _ h0 h1 h2 h3 h4 h5 h6 h7]
    simp only [Nat.reducePow]
    omega

theorem le_value_lt (mem : Buf) (p n : Nat) : le_value mem p n < 256 ^ n := by
  induction n with
  | zero => simp [le_value]
  | succ n ih =>
      have h := (mem (p + n)).isLt
      have h2 : (mem (p + n)).val * 256 ^ n ≤ 255 * 256 ^ n :=
        Nat.mul_le_mul_right _ (by omega)
      simp only [le_value, pow_succ]
      omega

theorem get_u64_lt (e : Endian) (mem : Buf) (p : Nat) : get_u64 e mem p < 2 ^ 64 := by
  rw [get_u64_eq]
  exact le_value_lt mem p 8

theorem get_u32_lt (e : Endian) (mem : Buf) (p : Nat) : get_u32 e mem p < 2 ^ 32 := by
  rw [get_u32_eq]
  exact le_value_lt mem p 4

/-! ## One iteration of the loop -/

theorem do_item_fst (e : Endian) (buf : Buf) (bp : Nat) (st : State) :
    (do_item e buf bp st).1 = body bp + item_hlen e buf bp := rfl

theorem do_item_other (e : Endian) (buf : Buf) (bp : Nat) (st : State)
    (h : ¬ IsExtentData e buf bp) : (do_item e buf bp st).2 = st := by
  simp only [do_item]
  rw [if_neg h]

theorem do_item_inline (e : Endian) (buf : Buf) (bp : Nat) (st : State)
    (h : IsInline e buf bp) :
    (do_item e buf bp st).2
      = account st (compression buf bp) (inline_len e buf bp) (ram_bytes e buf bp) := by
  obtain ⟨hk, hm⟩ := h
  have hm' : buf (bp + sizeof_search_header + 20) = 0 := hm
  simp only [do_item, do_extent_data]
  rw [if_pos hk, if_neg (by simpa using hm')]
  rfl

theorem do_item_regular_seen (e : Endian) (buf : Buf) (bp : Nat) (st : State)
    (h : IsRegular e buf bp) (hs : disk_bytenr e buf bp ∈ st.seen_extents) :
    (do_item e buf bp st).2 = st := by
  obtain ⟨hk, hm⟩ := h
  have hm' : buf (bp + sizeof_search_header + 20) ≠ 0 := hm
  have hs' : get_u64 e buf (bp + sizeof_search_header + 21) ∈ st.seen_extents := hs
  simp only [do_item, do_extent_data]
  rw [if_pos hk, if_pos hm', if_neg (by simpa using hs')]

theorem do_item_regular_new (e : Endian) (buf : Buf) (bp : Nat) (st : State)
    (h : IsRegular e buf bp) (hs : disk_bytenr e buf bp ∉ st.seen_extents) :
    (do_item e buf bp st).2
      = account { st with seen_extents := insert (disk_bytenr e buf bp) st.seen_extents }
          (compression buf bp) (disk_num_bytes e buf bp) (ram_bytes e buf bp) := by
  obtain ⟨hk, hm⟩ := h
  have hm' : buf (bp + sizeof_search_header + 20) ≠ 0 := hm
  have hs' : get_u64 e buf (bp + sizeof_search_header + 21) ∉ st.seen_extents := hs
  simp only [do_item, do_extent_data]
  rw [if_pos hk, if_pos hm', if_pos hs']
  rfl

end Compsize

namespace Compsize

/-! ## Accounting of single items -/

theorem account_disk_self (st : State) (c : Byte) (len ram : Nat) :
    (account st c len ram).disk c = (st.disk c + len) % 2 ^ 64 := by
  simp [account]

theorem account_total_self (st : State) (c : Byte) (len ram : Nat) :
    (account st c len ram).total c = (st.total c + ram) % 2 ^ 64 := by
  simp [account]

theorem account_disk_other (st : State) (c c' : Byte) (len ram : Nat) (h : c' ≠ c) :
    (account st c len ram).disk c' = st.disk c' := by
  simp [account, Function.update_noteq h]

theorem account_total_other (st : State) (c c' : Byte) (len ram : Nat) (h : c' ≠ c) :
    (account st c len ram).total c' = st.total c' := by
  simp [account, Function.update_noteq h]

/-- C1 (as amended): two Regular extent-data items with the same
`disk_bytenr`, processed one after the other from any state.  The second one
changes nothing.  When the address was not yet in the seen set, the pair adds
the first item's on-disk length and the first item's `ram_bytes` exactly once
each, to the bucket of its compression byte and to the grand total: logical
bytes are counted once per physical extent, not once per reference.  When
the address was already seen, the pair changes nothing at all. -/
theorem dedup_counts_extent_once (e : Endian) (st : State) (buf1 buf2 : Buf)
    (bp1 bp2 : Nat) (h1 : IsRegular e buf1 bp1) (h2 : IsRegular e buf2 bp2)
    (haddr : disk_bytenr e buf2 bp2 = disk_bytenr e buf1 bp1) :
    (do_item e buf2 bp2 (do_item e buf1 bp1 st).2).2 = (do_item e buf1 bp1 st).2 ∧
    (disk_bytenr e buf1 bp1 ∉ st.seen_extents →
      (do_item e buf2 bp2 (do_item e buf1 bp1 st).2).2.disk (compression buf1 bp1)
          = (st.disk (compression buf1 bp1) + disk_num_bytes e buf1 bp1) % 2 ^ 64 ∧
      (do_item e buf2 bp2 (do_item e buf1 bp1 st).2).2.total (compression buf1 bp1)
          = (st.total (compression buf1 bp1) + ram_bytes e buf1 bp1) % 2 ^ 64 ∧
      (do_item e buf2 bp2 (do_item e buf1 bp1 st).2).2.disk_all
          = (st.disk_all + disk_num_bytes e buf1 bp1) % 2 ^ 64 ∧
      (do_item e buf2 bp2 (do_item e buf1 bp1 st).2).2.total_all
          = (st.total_all + ram_bytes e buf1 bp1) % 2 ^ 64) ∧
    (disk_bytenr e buf1 bp1 ∈ st.seen_extents →
      (do_item e buf2 bp2 (do_item e buf1 bp1 st).2).2 = st) := by
  have hsecond : (do_item e buf2 bp2 (do_item e buf1 bp1 st).2).2 = (do_item e buf1 bp1 st).2 := by
    apply do_item_regular_seen e buf2 bp2 _ h2
    rw [haddr]
    by_cases hs : disk_bytenr e buf1 bp1 ∈ st.seen_extents
    · rw [do_item_regular_seen e buf1 bp1 st h1 hs]
      exact hs
    · rw [do_item_regular_new e buf1 bp1 st h1 hs]
      simp [account]
  refine ⟨hsecond, ?_, ?_⟩
  · intro hs
    rw [hsecond, do_item_regular_new e buf1 bp1 st h1 hs]
    simp [account]
  · intro hs
    rw [hsecond, do_item_regular_seen e buf1 bp1 st h1 hs]

/-- Witness of C1 (as amended): one little-endian item at address 4096 with
on-disk length 100 and `ram_bytes` 300, processed twice from the initial
state. -/
theorem dedup_counts_extent_once_witness :
    IsRegular .little (bufOfList (regular_item .little 300 0 1 4096 100)) 0 ∧
    (do_item .little (bufOfList (regular_item .little 300 0 1 4096 100)) 0
      (do_item .little (bufOfList (regular_item .little 300 0 1 4096 100)) 0
        init_state).2).2
      = (do_item .little (bufOfList (regular_item .little 300 0 1 4096 100)) 0
          init_state).2 :=
  ⟨by decide,
    (dedup_counts_extent_once .little init_state
      (bufOfList (regular_item .little 300 0 1 4096 100))
      (bufOfList (regular_item .little 300 0 1 4096 100)) 0 0 (by decide) (by decide)
      rfl).1⟩

/-- Counterexample to C1 as stated: two files each hold one Regular item at
address 4096 (on-disk length 100, `ram_bytes` 300, compression 0).  After
both, from the initial state, the logical counters hold 300, not the 600
that one addition per reference would give; and from a state that has
already seen the address, the pair adds no physical bytes at all. -/
theorem dedup_logical_per_reference_counterexample :
    IsRegular .little (bufOfList (regular_item .little 300 0 1 4096 100)) 0 ∧
    disk_bytenr .little (bufOfList (regular_item .little 300 0 1 4096 100)) 0 = 4096 ∧
    disk_num_bytes .little (bufOfList (regular_item .little 300 0 1 4096 100)) 0 = 100 ∧
    ram_bytes .little (bufOfList (regular_item .little 300 0 1 4096 100)) 0 = 300 ∧
    (do_file .little
        (.dir [.regular (.found 1 (bufOfList (regular_item .little 300 0 1 4096 100))),
               .regular (.found 1 (bufOfList (regular_item .little 300 0 1 4096 100)))])
        init_state).map (fun st => (st.disk 0, st.total 0, st.disk_all, st.total_all))
      = some (100, 300, 100, 300) ∧
    (do_file .little
        (.dir [.regular (.found 1 (bufOfList (regular_item .little 300 0 1 4096 100))),
               .regular (.found 1 (bufOfList (regular_item .little 300 0 1 4096 100)))])
        init_state).map (fun st => st.total_all)
      ≠ some ((init_state.total_all + 300 + 300) % 2 ^ 64) ∧
    (do_item .little (bufOfList (regular_item .little 300 0 1 4096 100)) 0
      (do_item .little (bufOfList (regular_item .little 300 0 1 4096 100)) 0
        { init_state with seen_extents := {4096} }).2).2.disk_all = 0 := by
  decide

/-- C2: a Regular extent-data item whose `disk_bytenr` is already in the
seen-extent set leaves the whole state unchanged: all 256 bucket pairs, the
grand-total pair and the seen-extent set (and the file counter). -/
theorem discard_on_repeat (e : Endian) (st : State) (buf : Buf) (bp : Nat)
    (h : IsRegular e buf bp) (hs : disk_bytenr e buf bp ∈ st.seen_extents) :
    (do_item e buf bp st).2 = st ∧
    (∀ c : Byte, (do_item e buf bp st).2.disk c = st.disk c ∧
      (do_item e buf bp st).2.total c = st.total c) ∧
    (do_item e buf bp st).2.disk_all = st.disk_all ∧
    (do_item e buf bp st).2.total_all = st.total_all ∧
    (do_item e buf bp st).2.seen_extents = st.seen_extents := by
  have hst := do_item_regular_seen e buf bp st h hs
  rw [hst]
  exact ⟨rfl, fun _ => ⟨rfl, rfl⟩, rfl, rfl, rfl⟩

/-- Witness of C2: an item at address 4096 met in a state that has seen
4096. -/
theorem discard_on_repeat_witness :
    IsRegular .big (bufOfList (regular_item .big 300 2 1 4096 100)) 0 ∧
    disk_bytenr .big (bufOfList (regular_item .big 300 2 1 4096 100)) 0
      ∈ ({ init_state with seen_extents := {4096} } : State).seen_extents ∧
    (do_item .big (bufOfList (regular_item .big 300 2 1 4096 100)) 0
      { init_state with seen_extents := {4096} }).2
      = { init_state with seen_extents := {4096} } :=
  ⟨by decide, by decide,
    (discard_on_repeat .big { init_state with seen_extents := {4096} }
      (bufOfList (regular_item .big 300 2 1 4096 100)) 0 (by decide) (by decide)).1⟩

end Compsize

namespace Compsize

/-- C3: an Inline extent-data item (storage-mode byte 0), from any state.
Its physical length `hlen-21` and its `ram_bytes` are added to the bucket of
its compression byte and to the grand total; the seen-extent set is neither
changed nor consulted (replacing it by any other set `S` gives the same
counters); and the same item processed a second time is counted in full
again. -/
theorem inline_additivity (e : Endian) (st : State) (buf : Buf) (bp : Nat)
    (h : IsInline e buf bp) :
    ((do_item e buf bp st).2.disk (compression buf bp)
        = (st.disk (compression buf bp) + inline_len e buf bp) % 2 ^ 64 ∧
      (do_item e buf bp st).2.total (compression buf bp)
        = (st.total (compression buf bp) + ram_bytes e buf bp) % 2 ^ 64 ∧
      (do_item e buf bp st).2.disk_all = (st.disk_all + inline_len e buf bp) % 2 ^ 64 ∧
      (do_item e buf bp st).2.total_all = (st.total_all + ram_bytes e buf bp) % 2 ^ 64) ∧
    (do_item e buf bp st).2.seen_extents = st.seen_extents ∧
    (∀ S : Finset Nat,
      (do_item e buf bp { st with seen_extents := S }).2
        = { (do_item e buf bp st).2 with seen_extents := S }) ∧
    ((do_item e buf bp (do_item e buf bp st).2).2.disk (compression buf bp)
        = (st.disk (compression buf bp) + inline_len e buf bp + inline_len e buf bp) % 2 ^ 64 ∧
      (do_item e buf bp (do_item e buf bp st).2).2.total (compression buf bp)
        = (st.total (compression buf bp) + ram_bytes e buf bp + ram_bytes e buf bp) % 2 ^ 64 ∧
      (do_item e buf bp (do_item e buf bp st).2).2.disk_all
        = (st.disk_all + inline_len e buf bp + inline_len e buf bp) % 2 ^ 64 ∧
      (do_item e buf bp (do_item e buf bp st).2).2.total_all
        = (st.total_all + ram_bytes e buf bp + ram_bytes e buf bp) % 2 ^ 64) := by
  refine ⟨?_, ?_, ?_, ?_⟩
  · rw [do_item_inline e buf bp st h]
    simp [account]
  · rw [do_item_inline e buf bp st h]
    simp [account]
  · intro S
    rw [do_item_inline e buf bp st h, do_item_inline e buf bp _ h]
    simp [account]
  · rw [do_item_inline e buf bp _ h, do_item_inline e buf bp st h]
    simp only [account, Function.update_same, Nat.reducePow]
    omega

/-- Witness of C3: an inline item of 50 payload bytes with compression 1,
processed in a state whose seen set holds the coincidental value 50. -/
theorem inline_additivity_witness :
    IsInline .little (bufOfList (inline_item .little 50 1 (List.replicate 50 0))) 0 ∧
    (do_item .little (bufOfList (inline_item .little 50 1 (List.replicate 50 0))) 0
      { init_state with seen_extents := {50} }).2.seen_extents = {50} :=
  ⟨by decide,
    (inline_additivity .little { init_state with seen_extents := {50} }
      (bufOfList (inline_item .little 50 1 (List.replicate 50 0))) 0 (by decide)).2.1⟩

/-- C5: a counted extent-data item (Inline, or Regular at an address not yet
seen) with compression byte `c`, for any `c` in 0..255.  Bucket `c` and the
grand total receive the item's physical length and `ram_bytes`, so the item
is not dropped; every other bucket keeps its value, in particular bucket 0
when `c` is not 0. -/
theorem unknown_compression_type (e : Endian) (st : State) (buf : Buf) (bp : Nat) (c : Byte)
    (hk : IsExtentData e buf bp) (hc : compression buf bp = c)
    (hcounted : storage_mode buf bp = 0 ∨ disk_bytenr e buf bp ∉ st.seen_extents) :
    (do_item e buf bp st).2.disk c = (st.disk c + physical_len e buf bp) % 2 ^ 64 ∧
    (do_item e buf bp st).2.total c = (st.total c + ram_bytes e buf bp) % 2 ^ 64 ∧
    (do_item e buf bp st).2.disk_all = (st.disk_all + physical_len e buf bp) % 2 ^ 64 ∧
    (do_item e buf bp st).2.total_all = (st.total_all + ram_bytes e buf bp) % 2 ^ 64 ∧
    (∀ c' : Byte, c' ≠ c →
      (do_item e buf bp st).2.disk c' = st.disk c' ∧
      (do_item e buf bp st).2.total c' = st.total c') ∧
    (c ≠ 0 →
      (do_item e buf bp st).2.disk 0 = st.disk 0 ∧
      (do_item e buf bp st).2.total 0 = st.total 0) := by
  subst hc
  have key : (do_item e buf bp st).2.disk_all = (st.disk_all + physical_len e buf bp) % 2 ^ 64 ∧
      (do_item e buf bp st).2.total_all = (st.total_all + ram_bytes e buf bp) % 2 ^ 64 ∧
      (do_item e buf bp st).2.disk
        = Function.update st.disk (compression buf bp)
            ((st.disk (compression buf bp) + physical_len e buf bp) % 2 ^ 64) ∧
      (do_item e buf bp st).2.total
        = Function.update st.total (compression buf bp)
            ((st.total (compression buf bp) + ram_bytes e buf bp) % 2 ^ 64) := by
    by_cases hm : storage_mode buf bp = 0
    · rw [do_item_inline e buf bp st ⟨hk, hm⟩]
      simp [account, physical_len, hm]
    · have hs : disk_bytenr e buf bp ∉ st.seen_extents := by
        rcases hcounted with h | h
        · exact absurd h hm
        · exact h
      rw [do_item_regular_new e buf bp st ⟨hk, hm⟩ hs]
      simp [account, physical_len, hm]
  obtain ⟨k1, k2, k3, k4⟩ := key
  refine ⟨?_, ?_, k1, k2, ?_, ?_⟩
  · rw [k3, Function.update_same]
  · rw [k4, Function.update_same]
  · intro c' hne
    rw [k3, k4, Function.update_noteq hne, Function.update_noteq hne]
    exact ⟨rfl, rfl⟩
  · intro hne
    rw [k3, k4, Function.update_noteq (Ne.symm hne), Function.update_noteq (Ne.symm hne)]
    exact ⟨rfl, rfl⟩

/-- Witness of C5: a Regular item with compression byte 200 met in the
initial state lands in bucket 200. -/
theorem unknown_compression_type_witness :
    IsExtentData .little (bufOfList (regular_item .little 300 200 1 4096 100)) 0 ∧
    compression (bufOfList (regular_item .little 300 200 1 4096 100)) 0 = 200 ∧
    (do_item .little (bufOfList (regular_item .little 300 200 1 4096 100)) 0
      init_state).2.disk 200
      = (init_state.disk 200
          + physical_len .little (bufOfList (regular_item .little 300 200 1 4096 100)) 0)
        % 2 ^ 64 :=
  ⟨by decide, by decide,
    (unknown_compression_type .little init_state
      (bufOfList (regular_item .little 300 200 1 4096 100)) 0 200 (by decide) (by decide)
      (Or.inr (by decide))).1⟩

end Compsize

namespace Compsize

/-! ## The partition invariant -/

theorem sum_update_mod (f : Byte → Nat) (a : Byte) (x : Nat) :
    (∑ c : Byte, Function.update f a ((f a + x) % 2 ^ 64) c) % 2 ^ 64
      = ((∑ c : Byte, f c) % 2 ^ 64 + x) % 2 ^ 64 := by
  rw [Finset.sum_update_of_mem (Finset.mem_univ a),
    Finset.sum_eq_add_sum_diff_singleton (Finset.mem_univ a) f]
  generalize (∑ c in Finset.univ \ {a}, f c) = r
  simp only [Nat.reducePow]
  omega

theorem SumsAgree_init : SumsAgree init_state := by
  simp [SumsAgree, init_state]

theorem SumsAgree_account (st : State) (c : Byte) (len ram : Nat) (h : SumsAgree st) :
    SumsAgree (account st c len ram) := by
  obtain ⟨hd, ht⟩ := h
  constructor
  · show (∑ c' : Byte, Function.update st.disk c ((st.disk c + len) % 2 ^ 64) c') % 2 ^ 64
      = (st.disk_all + len) % 2 ^ 64
    rw [sum_update_mod, hd]
  · show (∑ c' : Byte, Function.update st.total c ((st.total c + ram) % 2 ^ 64) c') % 2 ^ 64
      = (st.total_all + ram) % 2 ^ 64
    rw [sum_update_mod, ht]

theorem SumsAgree_do_item (e : Endian) (buf : Buf) (bp : Nat) (st : State)
    (h : SumsAgree st) : SumsAgree (do_item e buf bp st).2 := by
  by_cases hk : IsExtentData e buf bp
  · by_cases hm : storage_mode buf bp = 0
    · rw [do_item_inline e buf bp st ⟨hk, hm⟩]
      exact SumsAgree_account _ _ _ _ h
    · by_cases hs : disk_bytenr e buf bp ∈ st.seen_extents
      · rw [do_item_regular_seen e buf bp st ⟨hk, hm⟩ hs]
        exact h
      · rw [do_item_regular_new e buf bp st ⟨hk, hm⟩ hs]
        exact SumsAgree_account _ _ _ _ h
  · rw [do_item_other e buf bp st hk]
    exact h

theorem SumsAgree_decode_loop (e : Endian) (buf : Buf) (nr_items : Nat) :
    ∀ (bp : Nat) (st : State), SumsAgree st → SumsAgree (decode_loop e buf nr_items bp st).2 := by
  induction nr_items with
  | zero => intro bp st h; exact h
  | succ n ih =>
      intro bp st h
      exact ih _ _ (SumsAgree_do_item e buf bp st h)

mutual
theorem SumsAgree_do_file (e : Endian) :
    ∀ (p : Path) (st st' : State), SumsAgree st → do_file e p st = some st' → SumsAgree st'
  | .eloop, st, st', h, hr => by
      simp only [do_file, Option.some.injEq] at hr
      exact hr ▸ h
  | .open_fails, _, _, _, hr => by simp [do_file] at hr
  | .stat_fails, _, _, _, hr => by simp [do_file] at hr
  | .opendir_fails, _, _, _, hr => by simp [do_file] at hr
  | .out_of_memory, _, _, _, hr => by simp [do_file] at hr
  | .dir entries, st, st', h, hr => by
      simp only [do_file] at hr
      exact SumsAgree_do_entries e entries st st' h hr
  | .other, st, st', h, hr => by
      simp only [do_file, Option.some.injEq] at hr
      exact hr ▸ h
  | .regular .lookup_fails, _, _, _, hr => by simp [do_file] at hr
  | .regular .search_fails, _, _, _, hr => by simp [do_file] at hr
  | .regular (.found nr_items buf), st, st', h, hr => by
      simp only [do_file, Option.some.injEq] at hr
      rw [← hr]
      exact SumsAgree_decode_loop e buf nr_items 0 _ h
theorem SumsAgree_do_entries (e : Endian) :
    ∀ (ps : List Path) (st st' : State), SumsAgree st → do_entries e ps st = some st' →
      SumsAgree st'
  | [], st, st', h, hr => by
      simp only [do_entries, Option.some.injEq] at hr
      exact hr ▸ h
  | p :: ps, st, st', h, hr => by
      simp only [do_entries] at hr
      cases hp : do_file e p st with
      | none => simp [hp] at hr
      | some st1 =>
          rw [hp] at hr
          exact SumsAgree_do_entries e ps st1 st' (SumsAgree_do_file e p st st1 h hp) hr
end

/-- C4: bucket exhaustiveness.  After the decode loop has processed any
number of framed items of any buffer from the zero-initialised state of
`main`, and after any whole run (any tree of directories and files, any
response buffers and item counts) that is not cut short by `die`, the 256
physical counters sum to `disk_all` and the 256 logical counters sum to
`total_all`, modulo 2^64. -/
theorem bucket_exhaustiveness (e : Endian) (buf : Buf) (nr_items : Nat) (p : Path)
    (st : State) (h : do_file e p init_state = some st) :
    ((∑ c : Byte, (decode_loop e buf nr_items 0 init_state).2.disk c) % 2 ^ 64
        = (decode_loop e buf nr_items 0 init_state).2.disk_all ∧
      (∑ c : Byte, (decode_loop e buf nr_items 0 init_state).2.total c) % 2 ^ 64
        = (decode_loop e buf nr_items 0 init_state).2.total_all) ∧
    ((∑ c : Byte, st.disk c) % 2 ^ 64 = st.disk_all ∧
      (∑ c : Byte, st.total c) % 2 ^ 64 = st.total_all) :=
  ⟨SumsAgree_decode_loop e buf nr_items 0 init_state SumsAgree_init,
    SumsAgree_do_file e p init_state st SumsAgree_init h⟩

/-- Witness of C4: a file whose response holds one Regular item. -/
theorem bucket_exhaustiveness_witness :
    do_file .little
        (.regular (.found 1 (bufOfList (regular_item .little 300 0 1 4096 100)))) init_state
      = some (decode_loop .little (bufOfList (regular_item .little 300 0 1 4096 100)) 1 0
          { init_state with nfiles := (init_state.nfiles + 1) % 2 ^ 64 }).2 ∧
    ((∑ c : Byte,
        (decode_loop .little (bufOfList (regular_item .little 300 0 1 4096 100)) 1 0
          { init_state with nfiles := (init_state.nfiles + 1) % 2 ^ 64 }).2.disk c) % 2 ^ 64
      = (decode_loop .little (bufOfList (regular_item .little 300 0 1 4096 100)) 1 0
          { init_state with nfiles := (init_state.nfiles + 1) % 2 ^ 64 }).2.disk_all) :=
  ⟨rfl,
    (bucket_exhaustiveness .little (bufOfList []) 0
      (.regular (.found 1 (bufOfList (regular_item .little 300 0 1 4096 100))))
      (decode_loop .little (bufOfList (regular_item .little 300 0 1 4096 100)) 1 0
          { init_state with nfiles := (init_state.nfiles + 1) % 2 ^ 64 }).2 rfl).2.1⟩

end Compsize

namespace Compsize

/-! ## Framing and the absence of bounds checks -/

theorem decode_loop_succ (e : Endian) (buf : Buf) (n : Nat) :
    ∀ (bp : Nat) (st : State),
      decode_loop e buf (n + 1) bp st
        = do_item e buf (decode_loop e buf n bp st).1 (decode_loop e buf n bp st).2 := by
  induction n with
  | zero => intro bp st; rfl
  | succ n ih =>
      intro bp st
      show decode_loop e buf (n + 1) (do_item e buf bp st).1 (do_item e buf bp st).2 = _
      rw [ih]
      rfl

theorem decode_loop_cursor (e : Endian) (buf : Buf) (n : Nat) (st : State) :
    (decode_loop e buf n 0 st).1 = item_start e buf n := by
  induction n with
  | zero => rfl
  | succ n ih =>
      rw [decode_loop_succ, do_item_fst, ih]
      rfl

theorem item_start_mono (e : Endian) (buf : Buf) (k n : Nat) (h : k ≤ n) :
    item_start e buf k ≤ item_start e buf n := by
  induction n with
  | zero =>
      have : k = 0 := by omega
      subst this
      exact le_refl _
  | succ n ih =>
      by_cases hk : k = n + 1
      · subst hk
        exact le_refl _
      · have h1 := ih (by omega)
        have h2 : item_start e buf n ≤ item_start e buf (n + 1) := by
          show _ ≤ body (item_start e buf n) + item_hlen e buf (item_start e buf n)
          unfold body
          omega
        omega

end Compsize

namespace Compsize

/-! ## Decoding the responses built by `regular_item` and `inline_item` -/

theorem bufOfList_mid (pre l post : List Byte) (j : Nat) (hj : j < l.length) :
    bufOfList (pre ++ l ++ post) (pre.length + j) = l.getD j 0 := by
  unfold bufOfList
  rw [List.getD_eq_getElem?_getD, List.getD_eq_getElem?_getD, List.append_assoc,
    List.getElem?_append_right (by omega)]
  simp [List.getElem?_append_left hj]

theorem le_value_of_le_bytes8 (buf : Buf) (p x : Nat)
    (h : ∀ j, j < 8 → buf (p + j) = (le_bytes 8 x).getD j 0) :
    le_value buf p 8 = x % 2 ^ 64 := by
  have h0 := h 0 (by omega)
  have h1 := h 1 (by omega)
  have h2 := h 2 (by omega)
  have h3 := h 3 (by omega)
  have h4 := h 4 (by omega)
  have h5 := h 5 (by omega)
  have h6 := h 6 (by omega)
  have h7 := h 7 (by omega)
  simp only [le_value, h0, h1, h2, h3, h4, h5, h6, h7, le_bytes, List.getD_cons_zero,
    List.getD_cons_succ, Nat.reducePow]
  omega

theorem le_value_of_le_bytes4 (buf : Buf) (p x : Nat)
    (h : ∀ j, j < 4 → buf (p + j) = (le_bytes 4 x).getD j 0) :
    le_value buf p 4 = x % 2 ^ 32 := by
  have h0 := h 0 (by omega)
  have h1 := h 1 (by omega)
  have h2 := h 2 (by omega)
  have h3 := h 3 (by omega)
  simp only [le_value, h0, h1, h2, h3, le_bytes, List.getD_cons_zero,
    List.getD_cons_succ, Nat.reducePow]
  omega

theorem regular_item_length (e : Endian) (ram : Nat) (c t : Byte) (a len : Nat) :
    (regular_item e ram c t a len).length = 85 := by
  cases e <;> rfl

theorem inline_item_length (e : Endian) (ram : Nat) (c : Byte) (payload : List Byte) :
    (inline_item e ram c payload).length = 53 + payload.length := by
  cases e <;> simp [inline_item, header_bytes, prefix_bytes, host32_bytes, le_bytes] <;> omega

end Compsize

namespace Compsize

theorem regular_item_fields (e : Endian) (ram a len : Nat) (c t : Byte)
    (pre post : List Byte) :
    item_type e (bufOfList (pre ++ regular_item e ram c t a len ++ post)) pre.length
      = BTRFS_EXTENT_DATA_KEY ∧
    item_hlen e (bufOfList (pre ++ regular_item e ram c t a len ++ post)) pre.length = 53 ∧
    ram_bytes e (bufOfList (pre ++ regular_item e ram c t a len ++ post)) pre.length
      = ram % 2 ^ 64 ∧
    compression (bufOfList (pre ++ regular_item e ram c t a len ++ post)) pre.length = c ∧
    storage_mode (bufOfList (pre ++ regular_item e ram c t a len ++ post)) pre.length = t ∧
    disk_bytenr e (bufOfList (pre ++ regular_item e ram c t a len ++ post)) pre.length
      = a % 2 ^ 64 ∧
    disk_num_bytes e (bufOfList (pre ++ regular_item e ram c t a len ++ post)) pre.length
      = len % 2 ^ 64 := by
  have hb : ∀ j, j < 85 →
      bufOfList (pre ++ regular_item e ram c t a len ++ post) (pre.length + j)
        = (regular_item e ram c t a len).getD j 0 := fun j hj =>
    bufOfList_mid pre _ post j (by rw [regular_item_length]; exact hj)
  refine ⟨?_, ?_, ?_, ?_, ?_, ?_, ?_⟩
  · cases e
    · have k0 : bufOfList (pre ++ regular_item .little ram c t a len ++ post) (pre.length + 24) = 108 :=
        (hb 24 (by omega)).trans rfl
      have k1 : bufOfList (pre ++ regular_item .little ram c t a len ++ post) (pre.length + 25) = 0 :=
        (hb 25 (by omega)).trans rfl
      have k2 : bufOfList (pre ++ regular_item .little ram c t a len ++ post) (pre.length + 26) = 0 :=
        (hb 26 (by omega)).trans rfl
      have k3 : bufOfList (pre ++ regular_item .little ram c t a len ++ post) (pre.length + 27) = 0 :=
        (hb 27 (by omega)).trans rfl
      simp only [item_type, load32, offsetof_type, Nat.add_assoc, Nat.reduceAdd, k0, k1, k2,
        k3]
      decide
    · have k0 : bufOfList (pre ++ regular_item .big ram c t a len ++ post) (pre.length + 24) = 0 :=
        (hb 24 (by omega)).trans rfl
      have k1 : bufOfList (pre ++ regular_item .big ram c t a len ++ post) (pre.length + 25) = 0 :=
        (hb 25 (by omega)).trans rfl
      have k2 : bufOfList (pre ++ regular_item .big ram c t a len ++ post) (pre.length + 26) = 0 :=
        (hb 26 (by omega)).trans rfl
      have k3 : bufOfList (pre ++ regular_item .big ram c t a len ++ post) (pre.length + 27) = 108 :=
        (hb 27 (by omega)).trans rfl
      simp only [item_type, load32, offsetof_type, Nat.add_assoc, Nat.reduceAdd, k0, k1, k2,
        k3]
      decide
  · have h4 := le_value_of_le_bytes4
      (bufOfList (pre ++ regular_item e ram c t a len ++ post)) (pre.length + offsetof_len) 53
      (by
        intro j hj
        have hi : pre.length + offsetof_len + j = pre.length + (28 + j) := by
          simp only [offsetof_len]; omega
        rw [hi, hb _ (by omega)]
        interval_cases j <;> cases e <;> rfl)
    unfold item_hlen
    rw [get_u32_eq, h4]
    decide
  · unfold ram_bytes
    rw [get_u64_eq, le_value_of_le_bytes8 _ _ ram]
    intro j hj
    have hi : body pre.length + 8 + j = pre.length + (40 + j) := by
      simp only [body, sizeof_search_header]; omega
    rw [hi, hb _ (by omega)]
    interval_cases j <;> cases e <;> rfl
  · have hi : body pre.length + 16 = pre.length + 48 := by
      simp only [body, sizeof_search_header]
    unfold compression
    rw [hi, hb _ (by omega)]
    cases e <;> rfl
  · have hi : body pre.length + 20 = pre.length + 52 := by
      simp only [body, sizeof_search_header]
    unfold storage_mode
    rw [hi, hb _ (by omega)]
    cases e <;> rfl
  · unfold disk_bytenr
    rw [get_u64_eq, le_value_of_le_bytes8 _ _ a]
    intro j hj
    have hi : body pre.length + 21 + j = pre.length + (53 + j) := by
      simp only [body, sizeof_search_header]; omega
    rw [hi, hb _ (by omega)]
    interval_cases j <;> cases e <;> rfl
  · unfold disk_num_bytes
    rw [get_u64_eq, le_value_of_le_bytes8 _ _ len]
    intro j hj
    have hi : body pre.length + 29 + j = pre.length + (61 + j) := by
      simp only [body, sizeof_search_header]; omega
    rw [hi, hb _ (by omega)]
    interval_cases j <;> cases e <;> rfl

theorem inline_item_fields (e : Endian) (ram : Nat) (c : Byte) (payload pre post : List Byte) :
    item_type e (bufOfList (pre ++ inline_item e ram c payload ++ post)) pre.length
      = BTRFS_EXTENT_DATA_KEY ∧
    item_hlen e (bufOfList (pre ++ inline_item e ram c payload ++ post)) pre.length
      = (21 + payload.length) % 2 ^ 32 ∧
    ram_bytes e (bufOfList (pre ++ inline_item e ram c payload ++ post)) pre.length
      = ram % 2 ^ 64 ∧
    compression (bufOfList (pre ++ inline_item e ram c payload ++ post)) pre.length = c ∧
    storage_mode (bufOfList (pre ++ inline_item e ram c payload ++ post)) pre.length = 0 := by
  have hb : ∀ j, j < 53 →
      bufOfList (pre ++ inline_item e ram c payload ++ post) (pre.length + j)
        = (inline_item e ram c payload).getD j 0 := fun j hj =>
    bufOfList_mid pre _ post j (by rw [inline_item_length]; omega)
  refine ⟨?_, ?_, ?_, ?_, ?_⟩
  · cases e
    · have k0 : bufOfList (pre ++ inline_item .little ram c payload ++ post) (pre.length + 24) = 108 :=
        (hb 24 (by omega)).trans rfl
      have k1 : bufOfList (pre ++ inline_item .little ram c payload ++ post) (pre.length + 25) = 0 :=
        (hb 25 (by omega)).trans rfl
      have k2 : bufOfList (pre ++ inline_item .little ram c payload ++ post) (pre.length + 26) = 0 :=
        (hb 26 (by omega)).trans rfl
      have k3 : bufOfList (pre ++ inline_item .little ram c payload ++ post) (pre.length + 27) = 0 :=
        (hb 27 (by omega)).trans rfl
      simp only [item_type, load32, offsetof_type, Nat.add_assoc, Nat.reduceAdd, k0, k1, k2,
        k3]
      decide
    · have k0 : bufOfList (pre ++ inline_item .big ram c payload ++ post) (pre.length + 24) = 0 :=
        (hb 24 (by omega)).trans rfl
      have k1 : bufOfList (pre ++ inline_item .big ram c payload ++ post) (pre.length + 25) = 0 :=
        (hb 25 (by omega)).trans rfl
      have k2 : bufOfList (pre ++ inline_item .big ram c payload ++ post) (pre.length + 26) = 0 :=
        (hb 26 (by omega)).trans rfl
      have k3 : bufOfList (pre ++ inline_item .big ram c payload ++ post) (pre.length + 27) = 108 :=
        (hb 27 (by omega)).trans rfl
      simp only [item_type, load32, offsetof_type, Nat.add_assoc, Nat.reduceAdd, k0, k1, k2,
        k3]
      decide
  · have h4 := le_value_of_le_bytes4
      (bufOfList (pre ++ inline_item e ram c payload ++ post)) (pre.length + offsetof_len)
      (21 + payload.length)
      (by
        intro j hj
        have hi : pre.length + offsetof_len + j = pre.length + (28 + j) := by
          simp only [offsetof_len]; omega
        rw [hi, hb _ (by omega)]
        interval_cases j <;> cases e <;> rfl)
    unfold item_hlen
    rw [get_u32_eq, h4, Nat.mod_mod]
  · unfold ram_bytes
    rw [get_u64_eq, le_value_of_le_bytes8 _ _ ram]
    intro j hj
    have hi : body pre.length + 8 + j = pre.length + (40 + j) := by
      simp only [body, sizeof_search_header]; omega
    rw [hi, hb _ (by omega)]
    interval_cases j <;> cases e <;> rfl
  · have hi : body pre.length + 16 = pre.length + 48 := by
      simp only [body, sizeof_search_header]
    unfold compression
    rw [hi, hb _ (by omega)]
    cases e <;> rfl
  · have hi : body pre.length + 20 = pre.length + 52 := by
      simp only [body, sizeof_search_header]
    unfold storage_mode
    rw [hi, hb _ (by omega)]
    cases e <;> rfl

end Compsize

namespace Compsize

/-- C7: the end-to-end scenario, on either host and for all distinct 64-bit
addresses `A` and `B` and every 50-byte inline payload.  One file whose
response holds a Regular item at `A` (on-disk length 100, `ram_bytes` 300,
compression 0), a Regular item at `B` (200, 300, compression 0) and an
Inline item of item length 71 (`ram_bytes` 50, compression 1): `do_file`
returns, with bucket 0 = (300, 600), bucket 1 = (50, 50), grand total =
(350, 650) and every other bucket zero. -/
theorem end_to_end_scenario (e : Endian) (A B : Nat) (payload : List Byte)
    (hA : A < 2 ^ 64) (hB : B < 2 ^ 64) (hAB : A ≠ B) (hp : payload.length = 50) :
    ∃ st : State,
      do_file e
          (.regular (.found 3 (bufOfList (regular_item e 300 0 1 A 100
            ++ regular_item e 300 0 1 B 200 ++ inline_item e 50 1 payload))))
          init_state = some st ∧
      (st.disk 0 = 300 ∧ st.total 0 = 600) ∧
      (st.disk 1 = 50 ∧ st.total 1 = 50) ∧
      (st.disk_all = 350 ∧ st.total_all = 650) ∧
      ∀ c : Byte, c ≠ 0 → c ≠ 1 → st.disk c = 0 ∧ st.total c = 0 := by
  -- the three items and where they start
  obtain ⟨t1, l1, r1, c1, m1, a1, n1⟩ :=
    regular_item_fields e 300 A 100 0 1 []
      (regular_item e 300 0 1 B 200 ++ inline_item e 50 1 payload)
  obtain ⟨t2, l2, r2, c2, m2, a2, n2⟩ :=
    regular_item_fields e 300 B 200 0 1 (regular_item e 300 0 1 A 100)
      (inline_item e 50 1 payload)
  obtain ⟨t3, l3, r3, c3, m3⟩ :=
    inline_item_fields e 50 1 payload
      (regular_item e 300 0 1 A 100 ++ regular_item e 300 0 1 B 200) []
  have e1 : [] ++ regular_item e 300 0 1 A 100
      ++ (regular_item e 300 0 1 B 200 ++ inline_item e 50 1 payload)
      = regular_item e 300 0 1 A 100 ++ regular_item e 300 0 1 B 200
        ++ inline_item e 50 1 payload := by simp
  have e3 : regular_item e 300 0 1 A 100 ++ regular_item e 300 0 1 B 200
      ++ inline_item e 50 1 payload ++ []
      = regular_item e 300 0 1 A 100 ++ regular_item e 300 0 1 B 200
        ++ inline_item e 50 1 payload := by simp
  have p1 : ([] : List Byte).length = 0 := rfl
  have p2 : (regular_item e 300 0 1 A 100).length = 85 := regular_item_length _ _ _ _ _ _
  have p3 : (regular_item e 300 0 1 A 100 ++ regular_item e 300 0 1 B 200).length = 170 := by
    rw [List.length_append, regular_item_length, regular_item_length]
  rw [e1, p1] at t1 l1 r1 c1 m1 a1 n1
  rw [p2] at t2 l2 r2 c2 m2 a2 n2
  rw [e3, p3] at t3 l3 r3 c3 m3
  rw [hp] at l3
  generalize bufOfList (regular_item e 300 0 1 A 100 ++ regular_item e 300 0 1 B 200
    ++ inline_item e 50 1 payload) = buf at *
  have hA' : A % 2 ^ 64 = A := Nat.mod_eq_of_lt hA
  have hB' : B % 2 ^ 64 = B := Nat.mod_eq_of_lt hB
  rw [hA'] at a1
  rw [hB'] at a2
  have reg1 : IsRegular e buf 0 := ⟨t1, by rw [m1]; decide⟩
  have reg2 : IsRegular e buf 85 := ⟨t2, by rw [m2]; decide⟩
  have inl3 : IsInline e buf 170 := ⟨t3, m3⟩
  have il3 : inline_len e buf 170 = 50 := by
    unfold inline_len
    rw [l3]
    decide
  -- the three iterations
  refine ⟨_, rfl, ?_⟩
  have s1 : do_item e buf 0 { init_state with nfiles := (init_state.nfiles + 1) % 2 ^ 64 }
      = (85, account { init_state with nfiles := (init_state.nfiles + 1) % 2 ^ 64,
                                        seen_extents := {A} } 0 100 300) := by
    refine Prod.ext ?_ ?_
    · rw [do_item_fst, l1]
      rfl
    · rw [do_item_regular_new e buf 0 _ reg1 (by rw [a1]; simp [init_state]), a1, c1, n1, r1]
      rfl
  have s2 : do_item e buf 85
      (account { init_state with nfiles := (init_state.nfiles + 1) % 2 ^ 64,
                                  seen_extents := {A} } 0 100 300)
      = (170, account
          { account { init_state with nfiles := (init_state.nfiles + 1) % 2 ^ 64,
                                       seen_extents := {A} } 0 100 300 with
            seen_extents := {B, A} } 0 200 300) := by
    refine Prod.ext ?_ ?_
    · rw [do_item_fst, l2]
      rfl
    · rw [do_item_regular_new e buf 85 _ reg2
        (by rw [a2]; simp [account, Ne.symm hAB]), a2, c2, n2, r2]
      rfl
  show _ ∧ _ ∧ _ ∧ ∀ c : Byte, c ≠ 0 → c ≠ 1 →
    (decode_loop e buf 3 0 _).2.disk c = 0 ∧ (decode_loop e buf 3 0 _).2.total c = 0
  simp only [decode_loop, s1, s2]
  rw [do_item_inline e buf 170 _ inl3, il3, c3, r3]
  refine ⟨?_, ?_, ?_, ?_⟩
  · simp [account, init_state, Function.update]
  · simp [account, init_state, Function.update]
  · simp [account, init_state]
  · intro c h0 h1
    simp [account, init_state, Function.update, h0, h1]

/-- Witness of C7: little-endian host, addresses 4096 and 8192, a payload of
50 zero bytes. -/
theorem end_to_end_scenario_witness :
    (4096 : Nat) ≠ 8192 ∧ (List.replicate 50 (0 : Byte)).length = 50 ∧
    ∃ st : State,
      do_file .little
          (.regular (.found 3 (bufOfList (regular_item .little 300 0 1 4096 100
            ++ regular_item .little 300 0 1 8192 200
            ++ inline_item .little 50 1 (List.replicate 50 0)))))
          init_state = some st ∧
      (st.disk 0 = 300 ∧ st.total 0 = 600) ∧
      (st.disk 1 = 50 ∧ st.total 1 = 50) ∧
      (st.disk_all = 350 ∧ st.total_all = 650) ∧
      ∀ c : Byte, c ≠ 0 → c ≠ 1 → st.disk c = 0 ∧ st.total c = 0 :=
  ⟨by decide, by decide,
    end_to_end_scenario .little 4096 8192 (List.replicate 50 0) (by decide) (by decide)
      (by decide) (by decide)⟩

end Compsize

namespace Compsize

/-! ## The loop as a fold over records -/

theorem do_item_apply_record (e : Endian) (buf : Buf) (bp : Nat) (st : State)
    (h : IsExtentData e buf bp) :
    (do_item e buf bp st).2 = apply_record st (record_at e buf bp) := by
  by_cases hm : storage_mode buf bp = 0
  · rw [do_item_inline e buf bp st ⟨h, hm⟩]
    simp [apply_record, record_at, hm, physical_len]
  · by_cases hs : disk_bytenr e buf bp ∈ st.seen_extents
    · rw [do_item_regular_seen e buf bp st ⟨h, hm⟩ hs]
      simp [apply_record, record_at, hm, hs]
    · rw [do_item_regular_new e buf bp st ⟨h, hm⟩ hs]
      simp [apply_record, record_at, hm, hs, physical_len]

theorem decode_loop_records (e : Endian) (buf : Buf) (n : Nat) :
    ∀ (bp : Nat) (st : State),
      (decode_loop e buf n bp st).2 = (records e buf n bp).foldl apply_record st := by
  induction n with
  | zero => intro bp st; rfl
  | succ n ih =>
      intro bp st
      show (decode_loop e buf n (do_item e buf bp st).1 (do_item e buf bp st).2).2 = _
      rw [ih, do_item_fst]
      by_cases h : IsExtentData e buf bp
      · rw [do_item_apply_record e buf bp st h]
        simp only [records, List.foldl_append]
        rw [if_pos h]
        rfl
      · rw [do_item_other e buf bp st h]
        simp only [records, List.foldl_append]
        rw [if_neg h]
        rfl

end Compsize

namespace Compsize

theorem apply_record_nfiles (st : State) (r : ExtentRecord) (n : Nat) :
    apply_record { st with nfiles := n } r = { apply_record st r with nfiles := n } := by
  unfold apply_record
  cases r.physical_address with
  | none => rfl
  | some addr =>
      by_cases h : addr ∈ st.seen_extents
      · simp [h]
      · simp [h, account]

theorem foldl_apply_record_nfiles (rs : List ExtentRecord) :
    ∀ (st : State) (n : Nat),
      rs.foldl apply_record { st with nfiles := n }
        = { rs.foldl apply_record st with nfiles := n } := by
  induction rs with
  | nil => intro st n; rfl
  | cons r rs ih =>
      intro st n
      simp only [List.foldl_cons]
      rw [apply_record_nfiles, ih]

theorem do_entries_files (e : Endian) (files : List (Nat × Buf)) :
    ∀ st : State, ∃ n : Nat,
      do_entries e (files.map fun f => .regular (.found f.1 f.2)) st
        = some { (all_records e files).foldl apply_record st with nfiles := n } := by
  induction files with
  | nil => intro st; exact ⟨st.nfiles, rfl⟩
  | cons f fs ih =>
      intro st
      have hf : do_file e (.regular (.found f.1 f.2)) st
          = some { (records e f.2 f.1 0).foldl apply_record st with
              nfiles := (st.nfiles + 1) % 2 ^ 64 } := by
        simp only [do_file]
        rw [decode_loop_records, foldl_apply_record_nfiles]
      obtain ⟨n, hn⟩ := ih { (records e f.2 f.1 0).foldl apply_record st with
        nfiles := (st.nfiles + 1) % 2 ^ 64 }
      have hk := foldl_apply_record_nfiles (all_records e fs)
        ((records e f.2 f.1 0).foldl apply_record st) ((st.nfiles + 1) % 2 ^ 64)
      refine ⟨n, ?_⟩
      simp only [List.map_cons, do_entries, hf, all_records, List.foldl_append]
      refine hn.trans (congrArg some ?_)
      rw [hk]

/-! ## The fold and the records first observed -/

theorem account_disk_apply (st : State) (c0 c : Byte) (len ram : Nat) :
    (account st c0 len ram).disk c
      = if c = c0 then (st.disk c + len) % 2 ^ 64 else st.disk c := by
  by_cases h : c = c0
  · subst h
    simp [account]
  · simp [account, Function.update_noteq h, h]

theorem account_total_apply (st : State) (c0 c : Byte) (len ram : Nat) :
    (account st c0 len ram).total c
      = if c = c0 then (st.total c + ram) % 2 ^ 64 else st.total c := by
  by_cases h : c = c0
  · subst h
    simp [account]
  · simp [account, Function.update_noteq h, h]

theorem physical_sum_cons (c : Byte) (r : ExtentRecord) (rs : List ExtentRecord) :
    physical_sum c (r :: rs)
      = (if c = r.compression_type then r.physical_bytes else 0) + physical_sum c rs := by
  by_cases h : r.compression_type = c
  · simp [physical_sum, List.filter_cons, h]
  · simp [physical_sum, List.filter_cons, h, Ne.symm h]

theorem logical_sum_cons (c : Byte) (r : ExtentRecord) (rs : List ExtentRecord) :
    logical_sum c (r :: rs)
      = (if c = r.compression_type then r.logical_bytes else 0) + logical_sum c rs := by
  by_cases h : r.compression_type = c
  · simp [logical_sum, List.filter_cons, h]
  · simp [logical_sum, List.filter_cons, h, Ne.symm h]

/-- One counted record followed by the rest of the fold. -/
theorem counted_step (c : Byte) (st st1 : State) (r : ExtentRecord) (x y : Nat)
    (X : List ExtentRecord) (hd : st.disk c < 2 ^ 64) (ht : st.total c < 2 ^ 64)
    (h1d : st1.disk c
      = if c = r.compression_type then (st.disk c + r.physical_bytes) % 2 ^ 64 else st.disk c)
    (h1t : st1.total c
      = if c = r.compression_type then (st.total c + r.logical_bytes) % 2 ^ 64 else st.total c)
    (hx : x = (st1.disk c + physical_sum c X) % 2 ^ 64)
    (hy : y = (st1.total c + logical_sum c X) % 2 ^ 64) :
    (st1.disk c < 2 ^ 64 ∧ st1.total c < 2 ^ 64) ∧
    x = (st.disk c + physical_sum c (r :: X)) % 2 ^ 64 ∧
    y = (st.total c + logical_sum c (r :: X)) % 2 ^ 64 := by
  rw [physical_sum_cons, logical_sum_cons, hx, hy, h1d, h1t]
  by_cases h : c = r.compression_type
  · simp only [h, if_true] at *
    simp only [Nat.reducePow] at *
    refine ⟨⟨by omega, by omega⟩, by omega, by omega⟩
  · simp only [h, if_false] at *
    simp only [Nat.reducePow] at *
    refine ⟨⟨by omega, by omega⟩, by omega, by omega⟩

theorem account_lt (st : State) (c0 c : Byte) (len ram : Nat) (hd : st.disk c < 2 ^ 64)
    (ht : st.total c < 2 ^ 64) :
    (account st c0 len ram).disk c < 2 ^ 64 ∧ (account st c0 len ram).total c < 2 ^ 64 := by
  rw [account_disk_apply, account_total_apply]
  have h1 : (st.disk c + len) % 2 ^ 64 < 2 ^ 64 := Nat.mod_lt _ (by decide)
  have h2 : (st.total c + ram) % 2 ^ 64 < 2 ^ 64 := Nat.mod_lt _ (by decide)
  by_cases h : c = c0
  · simp only [h, if_true] at *
    exact ⟨h1, h2⟩
  · simp only [h, if_false]
    exact ⟨hd, ht⟩

theorem foldl_first_observed (c : Byte) (rs : List ExtentRecord) :
    ∀ (before : List ExtentRecord) (st : State),
      (∀ a, a ∈ st.seen_extents ↔ some a ∈ before.map (fun r => r.physical_address)) →
      st.disk c < 2 ^ 64 → st.total c < 2 ^ 64 →
      (rs.foldl apply_record st).disk c
        = (st.disk c + physical_sum c (first_observed_from before rs)) % 2 ^ 64 ∧
      (rs.foldl apply_record st).total c
        = (st.total c + logical_sum c (first_observed_from before rs)) % 2 ^ 64 := by
  induction rs with
  | nil =>
      intro before st _ hd ht
      simp only [List.foldl_nil, first_observed_from, physical_sum, logical_sum,
        List.filter_nil, List.map_nil, List.sum_nil, Nat.add_zero]
      exact ⟨(Nat.mod_eq_of_lt hd).symm, (Nat.mod_eq_of_lt ht).symm⟩
  | cons r rs ih =>
      intro before st hinv hd ht
      simp only [List.foldl_cons]
      cases hpa : r.physical_address with
      | none =>
          have hc : counted before r = true := by simp [counted, hpa]
          have hst : apply_record st r
              = account st r.compression_type r.physical_bytes r.logical_bytes := by
            simp [apply_record, hpa]
          have hinv' : ∀ a, a ∈ (apply_record st r).seen_extents
              ↔ some a ∈ (before ++ [r]).map (fun r => r.physical_address) := by
            intro a
            rw [hst]
            simp [account, hinv a, hpa]
          obtain ⟨b1, b2⟩ := account_lt st r.compression_type c r.physical_bytes
            r.logical_bytes hd ht
          rw [← hst] at b1 b2
          obtain ⟨i1, i2⟩ := ih (before ++ [r]) (apply_record st r) hinv' b1 b2
          have key := counted_step c st (apply_record st r) r _ _
            (first_observed_from (before ++ [r]) rs) hd ht
            (by rw [hst, account_disk_apply]) (by rw [hst, account_total_apply]) i1 i2
          simp only [first_observed_from, hc, if_true, List.singleton_append]
          exact key.2
      | some a =>
          by_cases hs : a ∈ st.seen_extents
          · have hc : counted before r = false := by
              simp only [counted, hpa]
              simpa using (hinv a).1 hs
            have hst : apply_record st r = st := by simp [apply_record, hpa, hs]
            have hinv' : ∀ a', a' ∈ st.seen_extents
                ↔ some a' ∈ (before ++ [r]).map (fun r => r.physical_address) := by
              intro a'
              simp only [List.map_append, List.map_cons, List.map_nil, List.mem_append,
                List.mem_singleton, hpa, Option.some.injEq, ← hinv a']
              constructor
              · exact Or.inl
              · rintro (h | h)
                · exact h
                · exact h ▸ hs
            rw [hst]
            simp only [first_observed_from, hc, Bool.false_eq_true, if_false, List.nil_append]
            exact ih (before ++ [r]) st hinv' hd ht
          · have hc : counted before r = true := by
              simp only [counted, hpa]
              simpa using fun h => hs ((hinv a).2 h)
            have hst : apply_record st r
                = account { st with seen_extents := insert a st.seen_extents }
                    r.compression_type r.physical_bytes r.logical_bytes := by
              simp [apply_record, hpa, hs]
            have hinv' : ∀ a', a' ∈ (apply_record st r).seen_extents
                ↔ some a' ∈ (before ++ [r]).map (fun r => r.physical_address) := by
              intro a'
              rw [hst]
              simp only [account, Finset.mem_insert, List.map_append, List.map_cons,
                List.map_nil, List.mem_append, List.mem_singleton, hpa, Option.some.injEq,
                ← hinv a']
              exact Or.comm
            obtain ⟨b1, b2⟩ := account_lt
              { st with seen_extents := insert a st.seen_extents } r.compression_type c
              r.physical_bytes r.logical_bytes hd ht
            rw [← hst] at b1 b2
            obtain ⟨i1, i2⟩ := ih (before ++ [r]) (apply_record st r) hinv' b1 b2
            have key := counted_step c st (apply_record st r) r _ _
              (first_observed_from (before ++ [r]) rs) hd ht
              (by rw [hst, account_disk_apply]) (by rw [hst, account_total_apply]) i1 i2
            simp only [first_observed_from, hc, if_true, List.singleton_append]
            exact key.2

theorem first_observed_from_address (a : Nat) (rs : List ExtentRecord) :
    ∀ before : List ExtentRecord,
      (first_observed_from before rs).filter (fun r => r.physical_address = some a)
        = if some a ∈ before.map (fun r => r.physical_address) then []
          else (rs.find? fun r => r.physical_address = some a).toList := by
  induction rs with
  | nil => intro before; simp [first_observed_from]
  | cons r rs ih =>
      intro before
      by_cases hr : r.physical_address = some a
      · by_cases hb : some a ∈ before.map (fun r => r.physical_address)
        · have hc : counted before r = false := by
            simp only [counted, hr]
            simpa using hb
          simp only [first_observed_from, hc, Bool.false_eq_true, if_false, List.nil_append]
          rw [ih (before ++ [r]), if_pos hb, if_pos]
          simp [hr]
        · have hc : counted before r = true := by
            simp only [counted, hr]
            simpa using hb
          simp only [first_observed_from, hc, if_true, List.singleton_append]
          rw [List.filter_cons_of_pos (by simp [hr]), ih (before ++ [r]), if_pos (by simp [hr]),
            if_neg hb, List.find?_cons_of_pos _ (by simp [hr])]
          rfl
      · have hmem : some a ∈ (before ++ [r]).map (fun r => r.physical_address)
            ↔ some a ∈ before.map (fun r => r.physical_address) := by
          simp only [List.map_append, List.map_cons, List.map_nil, List.mem_append,
            List.mem_singleton]
          constructor
          · rintro (h | h)
            · exact h
            · exact absurd h.symm hr
          · exact Or.inl
        have hdrop : ((if counted before r then [r] else [])
            ++ first_observed_from (before ++ [r]) rs).filter
              (fun r => r.physical_address = some a)
            = (first_observed_from (before ++ [r]) rs).filter
              (fun r => r.physical_address = some a) := by
          by_cases hc : counted before r = true
          · simp [hc, hr]
          · simp [hc]
        simp only [first_observed_from]
        rw [hdrop, ih (before ++ [r]), List.find?_cons_of_neg _ (by simp [hr])]
        by_cases hb : some a ∈ before.map (fun r => r.physical_address)
        · rw [if_pos hb, if_pos (hmem.2 hb)]
        · rw [if_neg hb, if_neg (fun h => hb (hmem.1 h))]

theorem first_observed_from_inline (rs : List ExtentRecord) :
    ∀ before : List ExtentRecord,
      (first_observed_from before rs).filter (fun r => r.physical_address = none)
        = rs.filter (fun r => r.physical_address = none) := by
  induction rs with
  | nil => intro before; rfl
  | cons r rs ih =>
      intro before
      by_cases hr : r.physical_address = none
      · have hc : counted before r = true := by simp [counted, hr]
        simp only [first_observed_from, hc, if_true, List.singleton_append]
        rw [List.filter_cons_of_pos (by simp [hr]), List.filter_cons_of_pos (by simp [hr]),
          ih (before ++ [r])]
      · have hdrop : ((if counted before r then [r] else [])
            ++ first_observed_from (before ++ [r]) rs).filter
              (fun r => r.physical_address = none)
            = (first_observed_from (before ++ [r]) rs).filter
              (fun r => r.physical_address = none) := by
          by_cases hc : counted before r = true
          · simp [hc, hr]
          · simp [hc]
        simp only [first_observed_from]
        rw [hdrop, ih (before ++ [r]), List.filter_cons_of_neg (by simp [hr])]

/-- C8: first-observed accounting.  For every sequence of files (item counts
and response buffers) processed from the empty state, on either host,
`do_file` returns and each bucket `c` holds, modulo 2^64, the sums of the
physical and logical bytes over the records with compression byte `c` that
are Inline or the first of the whole sequence to carry their physical
address.  Of the records kept, those at a given address are exactly the
first record of the sequence at that address, and the Inline ones are all
the Inline records. -/
theorem first_observed_accounting (e : Endian) (files : List (Nat × Buf)) :
    ∃ st : State,
      do_file e (files_path files) init_state = some st ∧
      (∀ c : Byte,
        st.disk c = physical_sum c (first_observed (all_records e files)) % 2 ^ 64 ∧
        st.total c = logical_sum c (first_observed (all_records e files)) % 2 ^ 64) ∧
      (∀ a : Nat,
        (first_observed (all_records e files)).filter (fun r => r.physical_address = some a)
          = ((all_records e files).find? fun r => r.physical_address = some a).toList) ∧
      (first_observed (all_records e files)).filter (fun r => r.physical_address = none)
        = (all_records e files).filter (fun r => r.physical_address = none) := by
  obtain ⟨n, hn⟩ := do_entries_files e files init_state
  refine ⟨_, hn, ?_, ?_, ?_⟩
  · intro c
    have h := foldl_first_observed c (all_records e files) [] init_state
      (by intro a; simp [init_state]) (by simp [init_state]) (by simp [init_state])
    simpa [init_state, first_observed] using h
  · intro a
    have h := first_observed_from_address a (all_records e files) []
    simpa [first_observed] using h
  · exact first_observed_from_inline (all_records e files) []

end Compsize

namespace Compsize

/-! ## Which bytes one iteration depends on -/

theorem load32_congr (e : Endian) (m1 m2 : Buf) (p : Nat)
    (h : ∀ j, j < 4 → m1 (p + j) = m2 (p + j)) : load32 e m1 p = load32 e m2 p := by
  have h0 := h 0 (by omega)
  have h1 := h 1 (by omega)
  have h2 := h 2 (by omega)
  have h3 := h 3 (by omega)
  simp only [Nat.add_zero] at h0
  cases e <;> simp only [load32, h0, h1, h2, h3]

theorem le_value_congr (m1 m2 : Buf) (p1 p2 n : Nat)
    (h : ∀ j, j < n → m1 (p1 + j) = m2 (p2 + j)) :
    le_value m1 p1 n = le_value m2 p2 n := by
  induction n with
  | zero => rfl
  | succ n ih =>
      simp only [le_value]
      rw [ih (fun j hj => h j (by omega)), h n (by omega)]

theorem get_u32_congr (e : Endian) (m1 m2 : Buf) (p : Nat)
    (h : ∀ j, j < 4 → m1 (p + j) = m2 (p + j)) : get_u32 e m1 p = get_u32 e m2 p := by
  rw [get_u32_eq, get_u32_eq]
  exact le_value_congr m1 m2 p p 4 h

theorem get_u64_congr (e : Endian) (m1 m2 : Buf) (p : Nat)
    (h : ∀ j, j < 8 → m1 (p + j) = m2 (p + j)) : get_u64 e m1 p = get_u64 e m2 p := by
  rw [get_u64_eq, get_u64_eq]
  exact le_value_congr m1 m2 p p 8 h

theorem do_item_congr (e : Endian) (m1 m2 : Buf) (bp : Nat) (st : State)
    (ht : item_type e m1 bp = item_type e m2 bp)
    (hl : item_hlen e m1 bp = item_hlen e m2 bp)
    (hr : ram_bytes e m1 bp = ram_bytes e m2 bp)
    (hc : compression m1 bp = compression m2 bp)
    (hm : storage_mode m1 bp = storage_mode m2 bp)
    (ha : storage_mode m1 bp ≠ 0 →
      disk_bytenr e m1 bp = disk_bytenr e m2 bp ∧
      disk_num_bytes e m1 bp = disk_num_bytes e m2 bp) :
    do_item e m1 bp st = do_item e m2 bp st := by
  refine Prod.ext ?_ ?_
  · rw [do_item_fst, do_item_fst, hl]
  · by_cases hk : IsExtentData e m1 bp
    · have hk2 : IsExtentData e m2 bp := by
        unfold IsExtentData
        rw [← ht]
        exact hk
      by_cases h0 : storage_mode m1 bp = 0
      · rw [do_item_inline e m1 bp st ⟨hk, h0⟩, do_item_inline e m2 bp st ⟨hk2, hm ▸ h0⟩,
          hc, hr]
        unfold inline_len
        rw [hl]
      · obtain ⟨ha1, ha2⟩ := ha h0
        by_cases hs : disk_bytenr e m1 bp ∈ st.seen_extents
        · rw [do_item_regular_seen e m1 bp st ⟨hk, h0⟩ hs,
            do_item_regular_seen e m2 bp st ⟨hk2, hm ▸ h0⟩ (ha1 ▸ hs)]
        · rw [do_item_regular_new e m1 bp st ⟨hk, h0⟩ hs,
            do_item_regular_new e m2 bp st ⟨hk2, hm ▸ h0⟩ (ha1 ▸ hs), hc, hr, ha1, ha2]
    · have hk2 : ¬ IsExtentData e m2 bp := by
        unfold IsExtentData
        rw [← ht]
        exact hk
      rw [do_item_other e m1 bp st hk, do_item_other e m2 bp st hk2]

theorem overwrite_of_not (buf other : Buf) (sel : Nat → Bool) (i : Nat)
    (h : sel i = false) : overwrite buf other sel i = buf i := by
  simp [overwrite, h]

/-- C9: Regular-extent decoding, on either host.  For a Regular extent-data
item the new state is determined by four values of the body: the
little-endian 8-byte value at offset 21 (`disk_bytenr`) is the dedup
identity, the byte at offset 16 selects the bucket, the 8-byte value at
offset 29 (`disk_num_bytes`) is the physical length and the 8-byte value at
offset 8 (`ram_bytes`) is the logical length.  Replacing the generation
field, the encryption byte, the reserved bytes, the intra-extent offset and
`num_bytes` by any other bytes changes neither the new state nor the
cursor. -/
theorem regular_decoding (e : Endian) (st : State) (buf other : Buf) (bp : Nat)
    (h : IsRegular e buf bp) :
    (do_item e buf bp st).2
      = (if le_value buf (body bp + 21) 8 ∈ st.seen_extents then st
         else
          account
            { st with seen_extents := insert (le_value buf (body bp + 21) 8) st.seen_extents }
            (buf (body bp + 16)) (le_value buf (body bp + 29) 8)
            (le_value buf (body bp + 8) 8)) ∧
    do_item e (overwrite buf other (regular_unused bp)) bp st = do_item e buf bp st := by
  constructor
  · by_cases hs : disk_bytenr e buf bp ∈ st.seen_extents
    · rw [do_item_regular_seen e buf bp st h hs]
      unfold disk_bytenr at hs
      rw [get_u64_eq] at hs
      rw [if_pos hs]
    · rw [do_item_regular_new e buf bp st h hs]
      unfold disk_bytenr at hs ⊢
      unfold disk_num_bytes ram_bytes compression
      rw [get_u64_eq] at hs
      rw [if_neg hs, get_u64_eq, get_u64_eq, get_u64_eq]
  · have hb : ∀ i, regular_unused bp i = false →
        overwrite buf other (regular_unused bp) i = buf i :=
      fun i hi => overwrite_of_not buf other _ i hi
    apply do_item_congr
    · exact load32_congr e _ _ _ fun j hj => hb _ (by
        simp only [regular_unused, body, sizeof_search_header, offsetof_type]
        simp only [Bool.or_eq_false_iff, decide_eq_false_iff_not]
        omega)
    · unfold item_hlen
      rw [get_u32_congr e _ buf _ fun j hj => hb _ (by
        simp only [regular_unused, body, sizeof_search_header, offsetof_len]
        simp only [Bool.or_eq_false_iff, decide_eq_false_iff_not]
        omega)]
    · exact get_u64_congr e _ _ _ fun j hj => hb _ (by
        simp only [regular_unused, body, sizeof_search_header]
        simp only [Bool.or_eq_false_iff, decide_eq_false_iff_not]
        omega)
    · exact hb _ (by
        simp only [regular_unused, body, sizeof_search_header]
        simp only [Bool.or_eq_false_iff, decide_eq_false_iff_not]
        omega)
    · exact hb _ (by
        simp only [regular_unused, body, sizeof_search_header]
        simp only [Bool.or_eq_false_iff, decide_eq_false_iff_not]
        omega)
    · intro _
      constructor
      · exact get_u64_congr e _ _ _ fun j hj => hb _ (by
          simp only [regular_unused, body, sizeof_search_header]
          simp only [Bool.or_eq_false_iff, decide_eq_false_iff_not]
          omega)
      · exact get_u64_congr e _ _ _ fun j hj => hb _ (by
          simp only [regular_unused, body, sizeof_search_header]
          simp only [Bool.or_eq_false_iff, decide_eq_false_iff_not]
          omega)

/-- Witness of C9: a Regular item on a big-endian host, all unused bytes
replaced by 255. -/
theorem regular_decoding_witness :
    IsRegular .big (bufOfList (regular_item .big 300 2 1 4096 100)) 0 ∧
    do_item .big
        (overwrite (bufOfList (regular_item .big 300 2 1 4096 100)) (fun _ => 255)
          (regular_unused 0)) 0 init_state
      = do_item .big (bufOfList (regular_item .big 300 2 1 4096 100)) 0 init_state :=
  ⟨by decide,
    (regular_decoding .big init_state (bufOfList (regular_item .big 300 2 1 4096 100))
      (fun _ => 255) 0 (by decide)).2⟩

/-- C10: Inline-extent decoding, on either host.  For an Inline extent-data
item whose declared length `hlen` (the little-endian value of the header's
`len` field) is at least 21, exactly `hlen - 21` physical bytes and the
little-endian 8-byte value at body offset 8 (`ram_bytes`) are added, to the
bucket of the byte at offset 16 and to the grand total.  Replacing every
byte from body offset 21 on by any other byte changes neither the new state
nor the cursor. -/
theorem inline_decoding (e : Endian) (st : State) (buf other : Buf) (bp : Nat)
    (h : IsInline e buf bp) (hlen : 21 ≤ item_hlen e buf bp) :
    item_hlen e buf bp = le_value buf (bp + offsetof_len) 4 ∧
    (do_item e buf bp st).2
      = account st (buf (body bp + 16)) (item_hlen e buf bp - 21)
          (le_value buf (body bp + 8) 8) ∧
    ((do_item e buf bp st).2.disk (buf (body bp + 16))
        = (st.disk (buf (body bp + 16)) + (item_hlen e buf bp - 21)) % 2 ^ 64 ∧
      (do_item e buf bp st).2.total (buf (body bp + 16))
        = (st.total (buf (body bp + 16)) + le_value buf (body bp + 8) 8) % 2 ^ 64 ∧
      (do_item e buf bp st).2.disk_all
        = (st.disk_all + (item_hlen e buf bp - 21)) % 2 ^ 64 ∧
      (do_item e buf bp st).2.total_all
        = (st.total_all + le_value buf (body bp + 8) 8) % 2 ^ 64) ∧
    do_item e (overwrite buf other (inline_payload bp)) bp st = do_item e buf bp st := by
  have hlt : item_hlen e buf bp < 2 ^ 32 := Nat.mod_lt _ (by decide)
  have hil : inline_len e buf bp = item_hlen e buf bp - 21 := by
    unfold inline_len
    simp only [Nat.reducePow] at hlt ⊢
    omega
  have hst : (do_item e buf bp st).2
      = account st (buf (body bp + 16)) (item_hlen e buf bp - 21)
          (le_value buf (body bp + 8) 8) := by
    rw [do_item_inline e buf bp st h, hil]
    unfold ram_bytes compression
    rw [get_u64_eq]
  refine ⟨?_, hst, ?_, ?_⟩
  · unfold item_hlen
    rw [get_u32_eq]
    exact Nat.mod_eq_of_lt (le_value_lt buf _ 4)
  · rw [hst]
    simp [account]
  · have hb : ∀ i, inline_payload bp i = false →
        overwrite buf other (inline_payload bp) i = buf i :=
      fun i hi => overwrite_of_not buf other _ i hi
    have hm : storage_mode (overwrite buf other (inline_payload bp)) bp = storage_mode buf bp :=
      hb _ (by
        simp only [inline_payload, body, sizeof_search_header, decide_eq_false_iff_not]
        omega)
    apply do_item_congr
    · exact load32_congr e _ _ _ fun j hj => hb _ (by
        simp only [inline_payload, body, sizeof_search_header, offsetof_type,
          decide_eq_false_iff_not]
        omega)
    · unfold item_hlen
      rw [get_u32_congr e _ buf _ fun j hj => hb _ (by
        simp only [inline_payload, body, sizeof_search_header, offsetof_len,
          decide_eq_false_iff_not]
        omega)]
    · exact get_u64_congr e _ _ _ fun j hj => hb _ (by
        simp only [inline_payload, body, sizeof_search_header, decide_eq_false_iff_not]
        omega)
    · exact hb _ (by
        simp only [inline_payload, body, sizeof_search_header, decide_eq_false_iff_not]
        omega)
    · exact hm
    · intro hne
      rw [hm] at hne
      exact absurd h.2 hne

/-- Witness of C10: an Inline item of 50 payload bytes, its payload and all
that follows replaced by 255. -/
theorem inline_decoding_witness :
    IsInline .little (bufOfList (inline_item .little 50 1 (List.replicate 50 0))) 0 ∧
    21 ≤ item_hlen .little (bufOfList (inline_item .little 50 1 (List.replicate 50 0))) 0 ∧
    do_item .little
        (overwrite (bufOfList (inline_item .little 50 1 (List.replicate 50 0)))
          (fun _ => 255) (inline_payload 0)) 0 init_state
      = do_item .little (bufOfList (inline_item .little 50 1 (List.replicate 50 0))) 0
          init_state :=
  ⟨by decide, by decide,
    (inline_decoding .little init_state
      (bufOfList (inline_item .little 50 1 (List.replicate 50 0))) (fun _ => 255) 0
      (by decide) (by decide)).2.2.2⟩

end Compsize

namespace Compsize

/-! ## Skipped items and the storage-mode byte -/

/-- C11: an item whose type tag, as line 132 reads it, is not
`BTRFS_EXTENT_DATA_KEY` (108).  Processing it returns the state unchanged
(every accumulator, the seen-extent set) and moves the cursor past the
32-byte header and the declared length; replacing the body bytes and all
that follows by any other bytes changes nothing. -/
theorem non_extent_items_skipped (e : Endian) (st : State) (buf other : Buf) (bp : Nat)
    (h : item_type e buf bp ≠ BTRFS_EXTENT_DATA_KEY) :
    do_item e buf bp st = (bp + sizeof_search_header + item_hlen e buf bp, st) ∧
    do_item e (overwrite buf other (item_body bp)) bp st = do_item e buf bp st := by
  have hb : ∀ i, item_body bp i = false → overwrite buf other (item_body bp) i = buf i :=
    fun i hi => overwrite_of_not buf other _ i hi
  have ht : item_type e (overwrite buf other (item_body bp)) bp = item_type e buf bp :=
    load32_congr e _ _ _ fun j hj => hb _ (by
      simp only [item_body, body, sizeof_search_header, offsetof_type, decide_eq_false_iff_not]
      omega)
  have hl : item_hlen e (overwrite buf other (item_body bp)) bp = item_hlen e buf bp := by
    unfold item_hlen
    rw [get_u32_congr e _ buf _ fun j hj => hb _ (by
      simp only [item_body, body, sizeof_search_header, offsetof_len, decide_eq_false_iff_not]
      omega)]
  have h1 : do_item e buf bp st = (bp + sizeof_search_header + item_hlen e buf bp, st) :=
    Prod.ext (do_item_fst e buf bp st) (do_item_other e buf bp st h)
  refine ⟨h1, ?_⟩
  rw [h1]
  refine Prod.ext ?_ ?_
  · rw [do_item_fst, hl]
    rfl
  · exact do_item_other e _ bp st (by unfold IsExtentData; rw [ht]; exact h)

/-- Witness of C11: an item with type tag 1 and a 5-byte body. -/
theorem non_extent_items_skipped_witness :
    item_type .little (bufOfList (header_bytes .little 1 5 ++ [1, 2, 3, 4, 5])) 0
      ≠ BTRFS_EXTENT_DATA_KEY ∧
    do_item .little (bufOfList (header_bytes .little 1 5 ++ [1, 2, 3, 4, 5])) 0 init_state
      = (0 + sizeof_search_header
          + item_hlen .little (bufOfList (header_bytes .little 1 5 ++ [1, 2, 3, 4, 5])) 0,
        init_state) :=
  ⟨by decide,
    (non_extent_items_skipped .little init_state
      (bufOfList (header_bytes .little 1 5 ++ [1, 2, 3, 4, 5])) (fun _ => 0) 0
      (by decide)).1⟩

theorem update_of_ne (buf : Buf) (p : Nat) (d : Byte) (i : Nat) (h : i ≠ p) :
    Function.update buf p d i = buf i := by
  rw [Function.update_apply, if_neg h]

/-- C12: storage-mode classification of an extent-data item.  When the byte
at body offset 20 is 0 the item takes the Inline branch: its length and
`ram_bytes` are added without any look at the seen-extent set.  When the
byte is not 0 the item takes the Regular branch: nothing if its
`disk_bytenr` was seen, else the address is recorded and `disk_num_bytes`
and `ram_bytes` are added.  Setting the byte to any non-zero value `d`
gives the same cursor and the same state as setting it to 1. -/
theorem storage_mode_classification (e : Endian) (st : State) (buf : Buf) (bp : Nat)
    (d : Byte) (hk : IsExtentData e buf bp) (hd : d ≠ 0) :
    (storage_mode buf bp = 0 →
      (do_item e buf bp st).2
        = account st (compression buf bp) (inline_len e buf bp) (ram_bytes e buf bp)) ∧
    (storage_mode buf bp ≠ 0 →
      (do_item e buf bp st).2
        = if disk_bytenr e buf bp ∈ st.seen_extents then st
          else
            account
              { st with seen_extents := insert (disk_bytenr e buf bp) st.seen_extents }
              (compression buf bp) (disk_num_bytes e buf bp) (ram_bytes e buf bp)) ∧
    do_item e (Function.update buf (body bp + 20) d) bp st
      = do_item e (Function.update buf (body bp + 20) 1) bp st := by
  refine ⟨fun h0 => do_item_inline e buf bp st ⟨hk, h0⟩, ?_, ?_⟩
  · intro h0
    by_cases hs : disk_bytenr e buf bp ∈ st.seen_extents
    · rw [do_item_regular_seen e buf bp st ⟨hk, h0⟩ hs, if_pos hs]
    · rw [do_item_regular_new e buf bp st ⟨hk, h0⟩ hs, if_neg hs]
  · -- both buffers agree with `buf` everywhere but at body offset 20
    have agree : ∀ (x : Byte) (i : Nat), i ≠ body bp + 20 →
        Function.update buf (body bp + 20) x i = buf i :=
      fun x i hi => update_of_ne buf _ x i hi
    have hty : ∀ x : Byte,
        item_type e (Function.update buf (body bp + 20) x) bp = item_type e buf bp :=
      fun x => load32_congr e _ _ _ fun j hj => agree x _ (by
        simp only [body, sizeof_search_header, offsetof_type]; omega)
    have hle : ∀ x : Byte,
        item_hlen e (Function.update buf (body bp + 20) x) bp = item_hlen e buf bp := by
      intro x
      unfold item_hlen
      rw [get_u32_congr e _ buf _ fun j hj => agree x _ (by
        simp only [body, sizeof_search_header, offsetof_len]; omega)]
    have hra : ∀ x : Byte,
        ram_bytes e (Function.update buf (body bp + 20) x) bp = ram_bytes e buf bp :=
      fun x => get_u64_congr e _ _ _ fun j hj => agree x _ (by omega)
    have hco : ∀ x : Byte,
        compression (Function.update buf (body bp + 20) x) bp = compression buf bp :=
      fun x => agree x _ (by omega)
    have hby : ∀ x : Byte,
        disk_bytenr e (Function.update buf (body bp + 20) x) bp = disk_bytenr e buf bp :=
      fun x => get_u64_congr e _ _ _ fun j hj => agree x _ (by omega)
    have hnb : ∀ x : Byte,
        disk_num_bytes e (Function.update buf (body bp + 20) x) bp
          = disk_num_bytes e buf bp :=
      fun x => get_u64_congr e _ _ _ fun j hj => agree x _ (by omega)
    have hmo : ∀ x : Byte, storage_mode (Function.update buf (body bp + 20) x) bp = x :=
      fun x => Function.update_same _ _ _
    have hreg : ∀ x : Byte, x ≠ 0 → IsRegular e (Function.update buf (body bp + 20) x) bp :=
      fun x hx => ⟨by unfold IsExtentData; rw [hty]; exact hk, by rw [hmo]; exact hx⟩
    refine Prod.ext ?_ ?_
    · rw [do_item_fst, do_item_fst, hle, hle]
    · by_cases hs : disk_bytenr e buf bp ∈ st.seen_extents
      · rw [do_item_regular_seen e _ bp st (hreg d hd) (by rw [hby]; exact hs),
          do_item_regular_seen e _ bp st (hreg 1 (by decide)) (by rw [hby]; exact hs)]
      · rw [do_item_regular_new e _ bp st (hreg d hd) (by rw [hby]; exact hs),
          do_item_regular_new e _ bp st (hreg 1 (by decide)) (by rw [hby]; exact hs),
          hby, hby, hco, hco, hnb, hnb, hra, hra]

/-- Witness of C12: the undocumented discriminant 7 on a Regular item. -/
theorem storage_mode_classification_witness :
    IsExtentData .little (bufOfList (regular_item .little 300 0 1 4096 100)) 0 ∧
    (7 : Byte) ≠ 0 ∧
    do_item .little
        (Function.update (bufOfList (regular_item .little 300 0 1 4096 100)) (body 0 + 20) 7)
        0 init_state
      = do_item .little
        (Function.update (bufOfList (regular_item .little 300 0 1 4096 100)) (body 0 + 20) 1)
        0 init_state :=
  ⟨by decide, by decide,
    (storage_mode_classification .little init_state
      (bufOfList (regular_item .little 300 0 1 4096 100)) 0 7 (by decide) (by decide)).2.2⟩

end Compsize

namespace Compsize

/-! ## The 32-bit subtraction of the inline branch -/

theorem item_offsets_eq (e : Endian) (buf : Buf) (n : Nat) :
    ∀ k : Nat,
      item_offsets e buf n (item_start e buf k) = (List.range' k n).map (item_start e buf) := by
  induction n with
  | zero => intro k; rfl
  | succ n ih =>
      intro k
      have hnext : item_start e buf k + sizeof_search_header
          + item_hlen e buf (item_start e buf k) = item_start e buf (k + 1) := rfl
      simp only [item_offsets, List.range'_succ, List.map_cons]
      rw [hnext, ih (k + 1)]

theorem decode_loop_offsets (e : Endian) (buf : Buf) (n : Nat) :
    ∀ (bp : Nat) (st : State),
      (decode_loop e buf n bp st).2
        = (item_offsets e buf n bp).foldl (fun s p => (do_item e buf p s).2) st := by
  induction n with
  | zero => intro bp st; rfl
  | succ n ih =>
      intro bp st
      show (decode_loop e buf n (do_item e buf bp st).1 (do_item e buf bp st).2).2 = _
      rw [ih, do_item_fst]
      rfl

theorem item_start_sum (e : Endian) (buf : Buf) (k : Nat) :
    item_start e buf k
      = ∑ j in Finset.range k, (sizeof_search_header + item_hlen e buf (item_start e buf j)) := by
  induction k with
  | zero => rfl
  | succ k ih =>
      rw [Finset.sum_range_succ, ← ih]
      show body (item_start e buf k) + item_hlen e buf (item_start e buf k) = _
      unfold body
      omega

end Compsize

namespace Compsize

/-! ## The report -/

theorem comp_label_total (st : State) (t : Byte) :
    t ∈ reported_buckets st ↔ 0 < st.total t := by
  simp [reported_buckets, List.mem_filter, List.mem_finRange, Nat.pos_iff_ne_zero]

theorem print_stats_isSome (type : String) (d t : Nat) (ht : 0 < t) :
    (print_stats type d t).isSome = true := by
  have h : t ≠ 0 := by omega
  simp [print_stats, h]

/-- C14: report safety, for every accumulator state.  When `main` reaches
the report, the grand-total logical counter is not zero; the lines are the
"all" line followed by one line for each bucket whose logical counter is
not zero, every other bucket being left out; and every call of
`print_stats` divides by a non-zero logical total, so that none of them is
undefined. -/
theorem report_safety (st : State) (files : Option Nat) (lines : List (Option StatsLine))
    (h : report st = .report files lines) :
    0 < st.total_all ∧
    lines
      = print_stats "all" st.disk_all st.total_all
        :: (reported_buckets st).map
            (fun t => print_stats ((comp_types t).getD "?????") (st.disk t) (st.total t)) ∧
    (∀ t : Byte, t ∈ reported_buckets st ↔ 0 < st.total t) ∧
    (∀ l, l ∈ lines → l.isSome = true) := by
  by_cases h0 : st.total_all = 0
  · simp [report, h0] at h
  · have hpos : 0 < st.total_all := Nat.pos_of_ne_zero h0
    simp only [report, h0, if_false, Outcome.report.injEq] at h
    obtain ⟨_, hl⟩ := h
    refine ⟨hpos, hl.symm, comp_label_total st, ?_⟩
    intro l hmem
    rw [← hl] at hmem
    simp only [stats_lines, List.mem_cons, List.mem_map] at hmem
    rcases hmem with h1 | ⟨t, ht, h2⟩
    · rw [h1]
      exact print_stats_isSome _ _ _ hpos
    · rw [← h2]
      exact print_stats_isSome _ _ _ ((comp_label_total st t).1 ht)

/-- Witness of C14: the state after one extent of 100 physical and 300
logical bytes in bucket 0. -/
theorem report_safety_witness :
    report (account init_state 0 100 300)
      = .report none (stats_lines (account init_state 0 100 300)) ∧
    0 < (account init_state 0 100 300).total_all :=
  ⟨rfl, (report_safety (account init_state 0 100 300) none
    (stats_lines (account init_state 0 100 300)) rfl).1⟩

/-- C15: the no-input condition.  When no call of `do_file` ends in `die`,
the run ends with exit status 1 and without a report exactly when there is
no path argument or the grand-total logical counter is zero after all
files; in every other case it prints the report for the final state and
returns 0. -/
theorem no_input_condition (e : Endian) (args : List Path) (st : State)
    (h : do_args e args init_state = some st) :
    ((exit_status (main e args) = 1 ∧ ∀ files lines, main e args ≠ .report files lines)
      ↔ (args = [] ∨ st.total_all = 0)) ∧
    (¬ (args = [] ∨ st.total_all = 0) →
      main e args
        = .report (if 1 < st.nfiles then some st.nfiles else none) (stats_lines st) ∧
      exit_status (main e args) = 0) := by
  cases args with
  | nil =>
      refine ⟨⟨fun _ => Or.inl rfl, fun _ => ⟨rfl, ?_⟩⟩, fun hn => absurd (Or.inl rfl) hn⟩
      intro files lines hm
      simp [main] at hm
  | cons p ps =>
      have hm : main e (p :: ps) = report st := by
        simp only [main, h]
      by_cases h0 : st.total_all = 0
      · have hr : main e (p :: ps) = .no_files := by
          rw [hm]
          simp [report, h0]
        refine ⟨⟨fun _ => Or.inr h0, fun _ => ⟨by rw [hr]; rfl, ?_⟩⟩,
          fun hn => absurd (Or.inr h0) hn⟩
        intro files lines hx
        rw [hr] at hx
        exact Outcome.noConfusion hx
      · have hr : main e (p :: ps)
            = .report (if 1 < st.nfiles then some st.nfiles else none) (stats_lines st) := by
          rw [hm]
          simp [report, h0]
        refine ⟨⟨?_, ?_⟩, fun _ => ⟨hr, by rw [hr]; rfl⟩⟩
        · rintro ⟨hs, _⟩
          rw [hr] at hs
          exact absurd hs (by simp [exit_status])
        · rintro (hnil | hz)
          · exact absurd hnil (List.cons_ne_nil p ps)
          · exact absurd hz h0

/-- Witness of C15: one file whose response holds one Regular item. -/
theorem no_input_condition_witness :
    do_args .little
        [.regular (.found 1 (bufOfList (regular_item .little 300 0 1 4096 100)))] init_state
      = some (decode_loop .little (bufOfList (regular_item .little 300 0 1 4096 100)) 1 0
          { init_state with nfiles := (init_state.nfiles + 1) % 2 ^ 64 }).2 ∧
    exit_status
      (main .little [.regular (.found 1 (bufOfList (regular_item .little 300 0 1 4096 100)))])
      = 0 :=
  ⟨rfl,
    ((no_input_condition .little
      [.regular (.found 1 (bufOfList (regular_item .little 300 0 1 4096 100)))]
      (decode_loop .little (bufOfList (regular_item .little 300 0 1 4096 100)) 1 0
          { init_state with nfiles := (init_state.nfiles + 1) % 2 ^ 64 }).2 rfl).2
      (by
        rintro (h | h)
        · exact absurd h (List.cons_ne_nil _ _)
        · exact absurd h (by decide))).2⟩

/-- C17 (as amended): for every physical total `d` and every logical total
`t > 0` held in the 64-bit accumulators, `print_stats` prints the quotient
of `d*100` reduced modulo 2^64 by `t`; this is `floor(d*100/t)` whenever
`d*100` is below 2^64, that is for `d` up to 184467440737095516. -/
theorem percentage_of_wrapped_product (type : String) (d t : Nat) (hd : d < 2 ^ 64)
    (ht : 0 < t) (ht64 : t < 2 ^ 64) :
    ∃ line : StatsLine,
      print_stats type d t = some line ∧
      line.percent = d * 100 % 2 ^ 64 / t ∧
      (d ≤ 184467440737095516 → line.percent = d * 100 / t) := by
  have h : t ≠ 0 := by omega
  refine ⟨{ type := type, percent := d * 100 % 2 ^ 64 / t, disk := print_bytes d,
            total := print_bytes t }, by simp only [print_stats, h, if_false], rfl, ?_⟩
  intro hsmall
  show d * 100 % 2 ^ 64 / t = d * 100 / t
  rw [Nat.mod_eq_of_lt (by simp only [Nat.reducePow]; omega)]

/-- Witness of C17 (as amended): 100 physical over 300 logical bytes. -/
theorem percentage_of_wrapped_product_witness :
    (0 : Nat) < 300 ∧
    ∃ line : StatsLine,
      print_stats "all" 100 300 = some line ∧
      line.percent = 100 * 100 % 2 ^ 64 / 300 ∧
      (100 ≤ 184467440737095516 → line.percent = 100 * 100 / 300) :=
  ⟨by decide, percentage_of_wrapped_product "all" 100 300 (by decide) (by decide) (by decide)⟩

/-- Counterexample to C17 as stated: with `d = t = 2^63`, both 64-bit
values, the exact percentage is 100, but `d*100` is a multiple of 2^64 and
`print_stats` prints 0. -/
theorem percentage_counterexample :
    (2 ^ 63 : Nat) < 2 ^ 64 ∧ 0 < (2 ^ 63 : Nat) ∧
    (2 ^ 63 * 100 / 2 ^ 63 : Nat) = 100 ∧
    (print_stats "all" (2 ^ 63) (2 ^ 63)).map (fun line => line.percent) = some 0 ∧
    (print_stats "all" (2 ^ 63) (2 ^ 63)).map (fun line => line.percent)
      ≠ some (2 ^ 63 * 100 / 2 ^ 63) := by
  decide

end Compsize

namespace Compsize

/-! ## The unit loop of `print_bytes` -/

theorem print_bytes_loop_spec (fuel : Nat) :
    ∀ u x : Nat, x ≤ fuel →
      ∃ k : Nat,
        print_bytes_loop fuel u x = (u + k, x / 1024 ^ k) ∧
        x / 1024 ^ k < 10240 ∧
        (0 < k → 10240 * 1024 ^ (k - 1) ≤ x) := by
  induction fuel with
  | zero =>
      intro u x hx
      have h0 : x = 0 := by omega
      subst h0
      exact ⟨0, by simp [print_bytes_loop], by simp, fun h => absurd h (by omega)⟩
  | succ fuel ih =>
      intro u x hx
      by_cases hc : 10240 ≤ x
      · obtain ⟨k, h1, h2, h3⟩ := ih (u + 1) (x / 2 ^ 10) (by
          simp only [Nat.reducePow]
          omega)
        have hdiv : x / 2 ^ 10 / 1024 ^ k = x / 1024 ^ (k + 1) := by
          rw [Nat.div_div_eq_div_mul, pow_succ, Nat.mul_comm]
          rfl
        refine ⟨k + 1, ?_, ?_, ?_⟩
        · simp only [print_bytes_loop, hc, if_true]
          rw [h1, hdiv]
          congr 1
          omega
        · rw [← hdiv]
          exact h2
        · intro _
          simp only [Nat.add_sub_cancel]
          by_cases hk : k = 0
          · subst hk
            simpa using hc
          · have h4 := h3 (Nat.pos_of_ne_zero hk)
            have h5 : 10240 * 1024 ^ (k - 1) * 1024 ≤ x := by
              have := Nat.mul_le_of_le_div 1024 _ _ (by simpa using h4)
              exact this
            have h6 : 1024 ^ k = 1024 ^ (k - 1) * 1024 := by
              rw [← pow_succ]
              congr 1
              omega
            rw [h6, ← Nat.mul_assoc]
            exact h5
      · refine ⟨0, ?_, ?_, fun h => absurd h (by omega)⟩
        · simp [print_bytes_loop, hc]
        · simpa using hc

theorem print_bytes_loop_fuel (fuel : Nat) :
    ∀ u x : Nat, x ≤ fuel → print_bytes_loop (fuel + 1) u x = print_bytes_loop fuel u x := by
  induction fuel with
  | zero =>
      intro u x hx
      have h0 : x = 0 := by omega
      subst h0
      simp [print_bytes_loop]
  | succ fuel ih =>
      intro u x hx
      by_cases hc : 10240 ≤ x
      · have hle : x / 2 ^ 10 ≤ fuel := by
          simp only [Nat.reducePow]
          omega
        have h1 : print_bytes_loop (fuel + 1 + 1) u x
            = print_bytes_loop (fuel + 1) (u + 1) (x / 2 ^ 10) := by
          simp only [print_bytes_loop, hc, if_true]
        have h2 : print_bytes_loop (fuel + 1) u x
            = print_bytes_loop fuel (u + 1) (x / 2 ^ 10) := by
          simp only [print_bytes_loop, hc, if_true]
        rw [h1, h2]
        exact ih (u + 1) (x / 2 ^ 10) hle
      · simp [print_bytes_loop, hc]

theorem print_bytes_loop_more_fuel (x u : Nat) (extra : Nat) :
    print_bytes_loop (x + extra) u x = print_bytes_loop x u x := by
  induction extra with
  | zero => rfl
  | succ n ih =>
      rw [← ih]
      exact print_bytes_loop_fuel (x + n) u x (by omega)

/-- The number of shifts and the reduced value for a 64-bit `x`. -/
theorem print_bytes_loop_bounds (x : Nat) (hx : x < 2 ^ 64) :
    ∃ k : Nat,
      print_bytes_loop x 0 x = (k, x / 1024 ^ k) ∧
      x / 1024 ^ k < 10240 ∧ k ≤ 6 ∧ (k = 6 → x / 1024 ^ k < 16) := by
  obtain ⟨k, h1, h2, h3⟩ := print_bytes_loop_spec x 0 x (le_refl x)
  rw [Nat.zero_add] at h1
  have hk : k ≤ 6 := by
    by_contra hcon
    have hk7 : 7 ≤ k := by omega
    have h4 := h3 (by omega)
    have h5 : (1024 : Nat) ^ 6 ≤ 1024 ^ (k - 1) :=
      Nat.pow_le_pow_right (by decide) (by omega)
    have h6 : 10240 * 1024 ^ 6 ≤ 10240 * 1024 ^ (k - 1) := Nat.mul_le_mul_left _ h5
    simp only [Nat.reducePow] at hx h6
    omega
  refine ⟨k, h1, h2, hk, ?_⟩
  intro h6
  subst h6
  simp only [Nat.reducePow] at hx ⊢
  omega

theorem unit_char_isSome (i : Nat) (h : i ≤ 6) : (unit_char i).isSome = true := by
  interval_cases i <;> decide

/-- C18: the unit index of `print_bytes` for a 64-bit value `x`.  The loop
ends because its condition fails, after at most 6 shifts, and allowing it
more iterations than `x` changes nothing; the index that selects the unit
letter is at most 6, below the length 7 of "BKMGTPE", so a letter of the
string is selected. -/
theorem print_bytes_unit_in_range (x : Nat) (hx : x < 2 ^ 64) :
    ((print_bytes_loop x 0 x).2 < 10240 ∧ (print_bytes_loop x 0 x).1 ≤ 6 ∧
      ∀ extra : Nat, print_bytes_loop (x + extra) 0 x = print_bytes_loop x 0 x) ∧
    (print_bytes x).unit_index ≤ 6 ∧
    (print_bytes x).unit_index < units.length ∧
    (unit_char (print_bytes x).unit_index).isSome = true := by
  obtain ⟨k, h1, h2, hk, h6⟩ := print_bytes_loop_bounds x hx
  have hidx : (print_bytes x).unit_index ≤ 6 := by
    unfold print_bytes
    simp only [h1]
    by_cases hc : 1024 ≤ x / 1024 ^ k
    · simp only [hc, if_true, BytesText.unit_index]
      by_cases hk6 : k = 6
      · have := h6 hk6
        omega
      · omega
    · simp only [hc, if_false, BytesText.unit_index]
      exact hk
  refine ⟨⟨?_, ?_, fun extra => print_bytes_loop_more_fuel x 0 extra⟩, hidx, ?_,
    unit_char_isSome _ hidx⟩
  · rw [h1]
    exact h2
  · rw [h1]
    exact hk
  · have hl : units.length = 7 := by decide
    rw [hl]
    omega

/-- Witness of C18: the largest 64-bit value, printed with unit index 6. -/
theorem print_bytes_unit_in_range_witness :
    (2 ^ 64 - 1 : Nat) < 2 ^ 64 ∧ (print_bytes (2 ^ 64 - 1)).unit_index ≤ 6 :=
  ⟨by decide, (print_bytes_unit_in_range (2 ^ 64 - 1) (by decide)).2.1⟩

theorem decimal_digits (y : Nat) (h1 : 1024 ≤ y) (h2 : y < 10240) :
    (1 ≤ y / 2 ^ 10 ∧ y / 2 ^ 10 ≤ 9) ∧
    y * 10 % 2 ^ 64 / 1024 % 10 = 10 * y / 1024 % 10 ∧
    (10 * (y / 2 ^ 10) + y * 10 % 2 ^ 64 / 1024 % 10) * 1024 ≤ 10 * y := by
  have hm : y * 10 % 2 ^ 64 = y * 10 :=
    Nat.mod_eq_of_lt (by simp only [Nat.reducePow]; omega)
  have hq : 10 * y / 1024 / 10 = y / 1024 := by
    rw [Nat.div_div_eq_div_mul, Nat.mul_comm 1024 10,
      Nat.mul_div_mul_left y 1024 (by decide : 0 < 10)]
  rw [hm, Nat.mul_comm y 10]
  simp only [Nat.reducePow]
  refine ⟨⟨by omega, by omega⟩, trivial, by omega⟩

/-- C19: `print_bytes` never overstates a 64-bit value `x`.  In the plain
form the value `v` with unit index `u` satisfies `v * 1024^u ≤ x`, and for
`x < 1024` it is `x` itself with index 0, the letter B.  In the decimal form
with mantissa `m`, digit `d` and unit index `u`, the mantissa is in 1..9,
the digit is `floor(10*y/1024) mod 10` for the reduced value
`y = floor(x / 1024^(u-1))`, and `(m + d/10) * 1024^u ≤ x`, stated without
fractions as `(10*m + d) * 1024^u ≤ 10*x`. -/
theorem print_bytes_never_overstates (x : Nat) (hx : x < 2 ^ 64) :
    (match print_bytes x with
      | .plain v u => v * 1024 ^ u ≤ x
      | .decimal m d u =>
          (10 * m + d) * 1024 ^ u ≤ 10 * x ∧ (1 ≤ m ∧ m ≤ 9) ∧ d ≤ 9 ∧ 1 ≤ u ∧
          (print_bytes_loop x 0 x).2 = x / 1024 ^ (u - 1) ∧
          d = 10 * (x / 1024 ^ (u - 1)) / 1024 % 10) ∧
    (x < 1024 → print_bytes x = .plain x 0 ∧ unit_char 0 = some 'B') := by
  obtain ⟨k, h1, h2, _, _⟩ := print_bytes_loop_bounds x hx
  have hle : x / 1024 ^ k * 1024 ^ k ≤ x := Nat.div_mul_le_self x (1024 ^ k)
  constructor
  · unfold print_bytes
    simp only [h1]
    by_cases hc : 1024 ≤ x / 1024 ^ k
    · simp only [hc, if_true]
      obtain ⟨⟨m1, m9⟩, hdig, hval⟩ := decimal_digits (x / 1024 ^ k) hc h2
      refine ⟨?_, ⟨m1, m9⟩, ?_, by omega, ?_, ?_⟩
      · calc (10 * (x / 1024 ^ k / 2 ^ 10) + x / 1024 ^ k * 10 % 2 ^ 64 / 1024 % 10)
                * 1024 ^ (k + 1)
            = (10 * (x / 1024 ^ k / 2 ^ 10) + x / 1024 ^ k * 10 % 2 ^ 64 / 1024 % 10)
                * 1024 * 1024 ^ k := by rw [pow_succ]; ring
          _ ≤ 10 * (x / 1024 ^ k) * 1024 ^ k := Nat.mul_le_mul_right _ hval
          _ = 10 * (x / 1024 ^ k * 1024 ^ k) := by ring
          _ ≤ 10 * x := Nat.mul_le_mul_left _ hle
      · exact Nat.le_of_lt_succ (Nat.mod_lt _ (by decide))
      · simp only [Nat.add_sub_cancel]
      · simp only [Nat.add_sub_cancel]
        exact hdig
    · simp only [hc, if_false]
      exact hle
  · intro hsmall
    have hloop : print_bytes_loop x 0 x = (0, x) := by
      cases x with
      | zero => rfl
      | succ n =>
          have hc : ¬ 10240 ≤ n + 1 := by omega
          simp [print_bytes_loop, hc]
    refine ⟨?_, by decide⟩
    unfold print_bytes
    simp only [hloop]
    have hc : ¬ 1024 ≤ x := by omega
    simp only [hc, if_false]

/-- Witness of C19: 1536 bytes are printed as 1.5 with unit index 1. -/
theorem print_bytes_never_overstates_witness :
    (1536 : Nat) < 2 ^ 64 ∧ print_bytes 1536 = .decimal 1 5 1 ∧
    (1536 < 1024 → print_bytes 1536 = .plain 1536 0 ∧ unit_char 0 = some 'B') :=
  ⟨by decide, by decide, (print_bytes_never_overstates 1536 (by decide)).2⟩

end Compsize

namespace Compsize

/-! ## A truncated last item -/

theorem item_read_end_ge (e : Endian) (buf : Buf) (bp : Nat) :
    bp + sizeof_search_header ≤ item_read_end e buf bp := by
  unfold item_read_end body
  split_ifs <;> omega

/-- One iteration depends only on the bytes below `item_read_end`. -/
theorem do_item_congr_below (e : Endian) (buf buf' : Buf) (bp : Nat) (st : State)
    (h : ∀ i, i < item_read_end e buf bp → buf' i = buf i) :
    do_item e buf' bp st = do_item e buf bp st := by
  have hge := item_read_end_ge e buf bp
  simp only [sizeof_search_header] at hge
  have ht : item_type e buf' bp = item_type e buf bp :=
    load32_congr e _ _ _ fun j hj => h _ (by simp only [offsetof_type]; omega)
  have hl : item_hlen e buf' bp = item_hlen e buf bp := by
    unfold item_hlen
    rw [get_u32_congr e buf' buf _ fun j hj => h _ (by simp only [offsetof_len]; omega)]
  by_cases hk : IsExtentData e buf bp
  · have hk' : item_type e buf bp = BTRFS_EXTENT_DATA_KEY := hk
    have h21 : body bp + 21 ≤ item_read_end e buf bp := by
      unfold item_read_end
      rw [if_pos hk']
      split_ifs <;> omega
    apply do_item_congr e buf' buf bp st ht hl
    · exact get_u64_congr e _ _ _ fun j hj => h _ (by omega)
    · exact h _ (by omega)
    · exact h _ (by omega)
    · intro hm'
      have hm : storage_mode buf bp ≠ 0 := by
        have hmm : storage_mode buf' bp = storage_mode buf bp := h _ (by omega)
        rw [← hmm]
        exact hm'
      have h37 : item_read_end e buf bp = body bp + 37 := by
        unfold item_read_end
        rw [if_pos hk', if_pos hm]
      exact ⟨get_u64_congr e _ _ _ fun j hj => h _ (by omega),
        get_u64_congr e _ _ _ fun j hj => h _ (by omega)⟩
  · have hk2 : ¬ IsExtentData e buf' bp := by
      unfold IsExtentData
      rw [ht]
      exact hk
    refine Prod.ext ?_ ?_
    · rw [do_item_fst, do_item_fst, hl]
    · rw [do_item_other e buf bp st hk, do_item_other e buf' bp st hk2]

theorem decode_loop_congr_below (e : Endian) (buf buf' : Buf) (size : Nat) (st : State)
    (hagree : ∀ i, i < size → buf' i = buf i) (n : Nat) :
    ReadsWithin e buf n size → decode_loop e buf' n 0 st = decode_loop e buf n 0 st := by
  induction n with
  | zero => intro _; rfl
  | succ n ih =>
      intro hreads
      have ih' := ih fun k hk => hreads k (by omega)
      rw [decode_loop_succ, decode_loop_succ, ih', decode_loop_cursor]
      exact do_item_congr_below e buf buf' _ _ fun i hi =>
        hagree i (lt_of_lt_of_le hi (hreads n (by omega)))

/-- C6 (as amended): the loop never compares a declared length with the
bytes supplied.  Take a response of `size` bytes inside the array, in which
item number `k` declares a length that extends past the end of the supplied
bytes while every byte the loop reads lies among them.  Then `k` is the last
item; the outcome of `do_file` is the same for every buffer that holds the
same supplied bytes, whatever lies behind them (every read stays inside the
array); `do_file` does not fail but
returns the state that the ordinary step `do_item` produces for the
truncated item; and when that item is extent data and counted (Inline, or
Regular at an address not yet seen) its physical length and its `ram_bytes`
are added to the grand total. -/
theorem truncated_item_not_rejected (e : Endian) (st : State) (buf buf' : Buf)
    (nr_items size k : Nat) (hsize : size ≤ sizeof_buf)
    (hover : OverrunsAt e buf nr_items size k) (hreads : ReadsWithin e buf nr_items size)
    (hagree : ∀ i, i < size → buf' i = buf i) :
    (∀ j, j < nr_items → item_read_end e buf (item_start e buf j) ≤ sizeof_buf) ∧
    k + 1 = nr_items ∧
    do_file e (.regular (.found nr_items buf')) st
      = do_file e (.regular (.found nr_items buf)) st ∧
    do_file e (.regular (.found nr_items buf)) st
      = some (do_item e buf (item_start e buf k)
          (decode_loop e buf k 0 { st with nfiles := (st.nfiles + 1) % 2 ^ 64 }).2).2 ∧
    (IsExtentData e buf (item_start e buf k) →
      (storage_mode buf (item_start e buf k) = 0 ∨
        disk_bytenr e buf (item_start e buf k)
          ∉ (decode_loop e buf k 0
              { st with nfiles := (st.nfiles + 1) % 2 ^ 64 }).2.seen_extents) →
      ∃ st' : State,
        do_file e (.regular (.found nr_items buf)) st = some st' ∧
        st'.disk_all
          = ((decode_loop e buf k 0 { st with nfiles := (st.nfiles + 1) % 2 ^ 64 }).2.disk_all
              + physical_len e buf (item_start e buf k)) % 2 ^ 64 ∧
        st'.total_all
          = ((decode_loop e buf k 0 { st with nfiles := (st.nfiles + 1) % 2 ^ 64 }).2.total_all
              + ram_bytes e buf (item_start e buf k)) % 2 ^ 64) := by
  have hlast : k + 1 = nr_items := by
    by_contra hne
    have hlt : k + 1 < nr_items := by
      have := hover.1
      omega
    have h1 := hreads (k + 1) hlt
    have h2 := item_read_end_ge e buf (item_start e buf (k + 1))
    have h3 := hover.2
    omega
  have hrun : do_file e (.regular (.found nr_items buf)) st
      = some (do_item e buf (item_start e buf k)
          (decode_loop e buf k 0 { st with nfiles := (st.nfiles + 1) % 2 ^ 64 }).2).2 := by
    subst hlast
    show some (decode_loop e buf (k + 1) 0 _).2 = _
    rw [decode_loop_succ, decode_loop_cursor]
  refine ⟨fun j hj => le_trans (hreads j hj) hsize, hlast, ?_, hrun, ?_⟩
  · show some (decode_loop e buf' nr_items 0 _).2 = some (decode_loop e buf nr_items 0 _).2
    rw [decode_loop_congr_below e buf buf' size _ hagree nr_items hreads]
  · intro hk hcounted
    refine ⟨_, hrun, ?_⟩
    by_cases hm : storage_mode buf (item_start e buf k) = 0
    · rw [do_item_inline e buf _ _ ⟨hk, hm⟩]
      simp [account, physical_len, hm]
    · have hs : disk_bytenr e buf (item_start e buf k)
          ∉ (decode_loop e buf k 0
              { st with nfiles := (st.nfiles + 1) % 2 ^ 64 }).2.seen_extents := by
        rcases hcounted with h | h
        · exact absurd h hm
        · exact h
      rw [do_item_regular_new e buf _ _ ⟨hk, hm⟩ hs]
      simp [account, physical_len, hm]

/-- Witness of C6 (as amended): a Regular item that declares 53 body bytes
in a response of which only the first 69 bytes (the header and 37 body
bytes) were supplied; the second buffer holds 255 in every byte behind
them. -/
theorem truncated_item_not_rejected_witness :
    (69 : Nat) ≤ sizeof_buf ∧
    OverrunsAt .little (bufOfList ((regular_item .little 300 0 1 4096 100).take 69)) 1 69 0 ∧
    ReadsWithin .little (bufOfList ((regular_item .little 300 0 1 4096 100).take 69)) 1 69 ∧
    do_file .little
        (.regular (.found 1
          (overwrite (bufOfList ((regular_item .little 300 0 1 4096 100).take 69))
            (fun _ => 255) (fun i => decide (69 ≤ i)))))
        init_state
      = do_file .little
        (.regular (.found 1 (bufOfList ((regular_item .little 300 0 1 4096 100).take 69))))
        init_state :=
  ⟨by decide, by decide, by decide,
    (truncated_item_not_rejected .little init_state
      (bufOfList ((regular_item .little 300 0 1 4096 100).take 69))
      (overwrite (bufOfList ((regular_item .little 300 0 1 4096 100).take 69))
        (fun _ => 255) (fun i => decide (69 ≤ i)))
      1 69 0 (by decide) (by decide) (by decide)
      (fun i hi => overwrite_of_not _ _ _ i (by simpa using hi))).2.2.1⟩

/-- Counterexample to C6 as stated: the response holds one Regular item
whose header declares 53 body bytes, but only 69 bytes (the 32-byte header
and 37 body bytes) were supplied.  The declared length runs past the end of
the supplied bytes and the loop reads nothing behind them (its highest read
ends at offset 69), yet `do_file` ends normally, not with a fatal error, and
the truncated item is accounted: 100 physical and 300 logical bytes. -/
theorem truncated_buffer_counterexample :
    ((regular_item .little 300 0 1 4096 100).take 69).length = 69 ∧
    OverrunsAt .little (bufOfList ((regular_item .little 300 0 1 4096 100).take 69)) 1 69 0 ∧
    item_read_end .little (bufOfList ((regular_item .little 300 0 1 4096 100).take 69)) 0
      = 69 ∧
    (do_file .little
        (.regular (.found 1 (bufOfList ((regular_item .little 300 0 1 4096 100).take 69))))
        init_state).isSome = true ∧
    (do_file .little
        (.regular (.found 1 (bufOfList ((regular_item .little 300 0 1 4096 100).take 69))))
        init_state).map (fun st => (st.disk 0, st.total 0, st.disk_all, st.total_all))
      = some (100, 300, 100, 300) := by
  decide

end Compsize

namespace Compsize

/-! ## Host byte order -/

/-- The declared length on a big-endian host: line 117 passes the `len`
field through `get_u32`, which reads the four bytes little-endian on every
host.  For the header in host byte order that such a host receives, with
length 53 stored as 00 00 00 35, the value of `hlen` is 0x35000000. -/
theorem len_of_native_header_on_big_endian :
    be_value (bufOfList (native_regular_item .big 300 0 1 4096 100)) (0 + 28) 4 = 53 ∧
    item_hlen .big (bufOfList (native_regular_item .big 300 0 1 4096 100)) 0 = 0x35000000 := by
  decide

end Compsize

namespace Compsize

/-! ## Framing of well-formed items -/

theorem item_hlen_eq (e : Endian) (buf : Buf) (p : Nat) :
    item_hlen e buf p = le_value buf (p + 28) 4 := by
  unfold item_hlen
  rw [get_u32_eq]
  exact Nat.mod_eq_of_lt (le_value_lt buf _ 4)

theorem expected_start_succ (lens : List Nat) (k l : Nat) (h : lens[k]? = some l) :
    expected_start lens (k + 1) = expected_start lens k + (32 + l) := by
  unfold expected_start
  rw [List.take_succ, h]
  simp

theorem item_start_expected (e : Endian) (buf : Buf) (lens : List Nat)
    (h : DeclaresLengths buf lens) (k : Nat) (hk : k ≤ lens.length) :
    item_start e buf k = expected_start lens k := by
  induction k with
  | zero => rfl
  | succ k ih =>
      have hlt : k < lens.length := by omega
      have ih' := ih (by omega)
      have hdecl := h k hlt
      have hsome : lens[k]? = some (le_value buf (expected_start lens k + 28) 4) :=
        hdecl.symm
      rw [expected_start_succ lens k _ hsome]
      show body (item_start e buf k) + item_hlen e buf (item_start e buf k) = _
      rw [item_hlen_eq, ih']
      unfold body sizeof_search_header
      omega

/-- C16: framing.  Let the buffer hold well-formed items with body lengths
`lens`, `n` of them: the header at the place where item `k` belongs declares
the length `lens[k]` in its `len` bytes.  Then the loop run with item count
`n` makes exactly `n` iterations and stops with its cursor behind the last
item.  Iteration number `k` (from 0) handles the item whose header starts at
the sum over the earlier items of 32 plus the item's declared length; it
reads that item's declared length from the four `len` bytes at header
offset 28, and the item's body starts 32 bytes after its header.  The final
state is the result of `do_item` at these headers in order. -/
theorem framing (e : Endian) (buf : Buf) (lens : List Nat) (st : State)
    (h : DeclaresLengths buf lens) :
    (item_offsets e buf lens.length 0).length = lens.length ∧
    item_offsets e buf lens.length 0 = (List.range lens.length).map (expected_start lens) ∧
    (∀ k : Nat, k < lens.length →
      (item_offsets e buf lens.length 0)[k]?
        = some (((lens.take k).map fun l => 32 + l).sum) ∧
      some (item_hlen e buf (((lens.take k).map fun l => 32 + l).sum)) = lens[k]? ∧
      item_hlen e buf (((lens.take k).map fun l => 32 + l).sum)
        = le_value buf (((lens.take k).map fun l => 32 + l).sum + 28) 4 ∧
      body (((lens.take k).map fun l => 32 + l).sum)
        = ((lens.take k).map fun l => 32 + l).sum + 32 ∧
      decode_loop e buf (k + 1) 0 st
        = do_item e buf (((lens.take k).map fun l => 32 + l).sum)
            (decode_loop e buf k 0 st).2) ∧
    (decode_loop e buf lens.length 0 st).1 = (lens.map fun l => 32 + l).sum ∧
    (decode_loop e buf lens.length 0 st).2
      = (item_offsets e buf lens.length 0).foldl (fun s p => (do_item e buf p s).2) st := by
  have hoff : item_offsets e buf lens.length 0
      = (List.range lens.length).map (expected_start lens) := by
    have h0 := item_offsets_eq e buf lens.length 0
    rw [← List.range_eq_range'] at h0
    rw [show item_offsets e buf lens.length 0
        = item_offsets e buf lens.length (item_start e buf 0) from rfl, h0]
    apply List.map_congr_left
    intro k hk
    exact item_start_expected e buf lens h k (by
      have := List.mem_range.1 hk
      omega)
  have hlen : ∀ p, item_hlen e buf p = le_value buf (p + 28) 4 := by
    intro p
    unfold item_hlen
    rw [get_u32_eq]
    exact Nat.mod_eq_of_lt (le_value_lt buf _ 4)
  refine ⟨?_, hoff, ?_, ?_, decode_loop_offsets e buf lens.length 0 st⟩
  · rw [hoff, List.length_map, List.length_range]
  · intro k hk
    have hs := item_start_expected e buf lens h k (by omega)
    refine ⟨?_, ?_, hlen _, rfl, ?_⟩
    · rw [hoff, List.getElem?_map, List.getElem?_range hk]
      rfl
    · rw [hlen]
      exact h k hk
    · rw [decode_loop_succ, decode_loop_cursor, hs]
      rfl
  · rw [decode_loop_cursor, item_start_expected e buf lens h lens.length (le_refl _)]
    unfold expected_start
    rw [List.take_length]

/-- Witness of C16: a response of three items of lengths 53, 53 and 71; the
headers are at offsets 0, 85 and 170, the third header declares 71 and the
cursor ends at 273. -/
theorem framing_witness :
    DeclaresLengths
      (bufOfList (regular_item .little 300 0 1 4096 100
        ++ regular_item .little 300 0 1 8192 200
        ++ inline_item .little 50 1 (List.replicate 50 0))) [53, 53, 71] ∧
    item_offsets .little
        (bufOfList (regular_item .little 300 0 1 4096 100
          ++ regular_item .little 300 0 1 8192 200
          ++ inline_item .little 50 1 (List.replicate 50 0))) 3 0
      = [0, 85, 170] ∧
    item_hlen .little
        (bufOfList (regular_item .little 300 0 1 4096 100
          ++ regular_item .little 300 0 1 8192 200
          ++ inline_item .little 50 1 (List.replicate 50 0))) 170
      = 71 ∧
    (decode_loop .little
        (bufOfList (regular_item .little 300 0 1 4096 100
          ++ regular_item .little 300 0 1 8192 200
          ++ inline_item .little 50 1 (List.replicate 50 0))) 3 0 init_state).1
      = 273 :=
  ⟨by decide,
    (framing .little
      (bufOfList (regular_item .little 300 0 1 4096 100
        ++ regular_item .little 300 0 1 8192 200
        ++ inline_item .little 50 1 (List.replicate 50 0))) [53, 53, 71] init_state
      (by decide)).2.1.trans (by decide),
    by decide,
    (framing .little
      (bufOfList (regular_item .little 300 0 1 4096 100
        ++ regular_item .little 300 0 1 8192 200
        ++ inline_item .little 50 1 (List.replicate 50 0))) [53, 53, 71] init_state
      (by decide)).2.2.2.1.trans (by decide)⟩

end Compsize
